import Mathlib

/-!
# Verification of the column compaction/take kernel
  (`src/query/expression/src/kernels/take_compact.rs`)

This file is a shallow embedding, in Lean 4, of the column compaction
kernel: `DataBlock::take_compacted_indices`, `Column::take_compacted_indices`,
and the four run-filler routines `take_primitive_types`, `take_bool_types`,
`take_compact_arg_types` and `take_scalar_types`.

Modelling conventions:

* A fixed-width element buffer (`Buffer<T>` in the source) is a `List α`.
  The kernel treats elements as opaque fixed-width blobs (it only copies
  them), so numeric payloads of every width are represented by `List Int`
  and a kind tag; a packed bitmap (`Bitmap`) is a `List Bool`; a
  variable-length payload (string/bitmap-blob/variant item) is a
  `List Nat` of bytes.
* The uninitialised output allocation `Vec::with_capacity(row_num)` is a
  function `Nat → Option α` that is `none` everywhere; a raw
  `copy_nonoverlapping` into it becomes a pointwise update.  Reading a
  cell that was never written — undefined behaviour in the source — reads
  as `none`.
* `debug_assert_eq!` is modelled as a guard that yields `none` when it
  would fire; panics and undefined behaviour (the `cnt = 0` underflow in
  `31 - cnt.leading_zeros()`, an out-of-range `set_len`) are also `none`.
  Fallible paths therefore return `Option`.
* Every copy performed by the unsafe bulk-copy engine is additionally
  recorded in a trace of `CopyOp`s so that the safety contract of the
  doubling algorithm (bounds, reads only of previously-written data) can
  be stated and proved.
* The `Column` enum, `ColumnBuilder`, `Column::slice` and
  `DataBlock::slice` live outside the files under verification; where the
  kernel uses them they are modelled from the spec (see the doc comments
  starting with `Modelled from the spec`).
-/

namespace TakeCompact

/-- The run list: ordered `(source_index, repeat_count)` pairs.  In the
source both components are `u32`; we use `Nat` and carry the `< 2 ^ 32`
bound as a hypothesis where the algorithm depends on 32-bit arithmetic. -/
abbrev Runs := List (Nat × Nat)

/-- `indices.iter().fold(0, |acc, &(_, x)| acc + x as usize)` — the sum of
the repeat counts of a run list, exactly as the `debug_assert_eq!` in the
source computes it. -/
def sumCounts (indices : Runs) : Nat :=
  indices.foldl (fun acc r => acc + r.2) 0

/-- Binary length of `n` (number of significant bits), computed with
explicit fuel so that it reduces by kernel computation; `bitLen 32` is
exact for every value of a `u32`. -/
def bitLen : Nat → Nat → Nat
  | 0, _ => 0
  | fuel + 1, n => if n = 0 then 0 else bitLen fuel (n / 2) + 1

/-- `u32::leading_zeros` restricted to values below `2 ^ 32`.  For `n = 0`
it is 32, and `31 - 32` then underflows in the source (a panic in a debug
build); the caller models that case separately. -/
def leadingZeros32 (n : Nat) : Nat :=
  32 - bitLen 32 n

/-- `1 << (31 - cnt.leading_zeros())`: the largest power of two that is at
most `cnt` (for `1 ≤ cnt < 2 ^ 32`). -/
def maxSegment (cnt : Nat) : Nat :=
  2 ^ (31 - leadingZeros32 cnt)

/-- The source of one recorded copy operation: either the source column
buffer (`col_ptr.add start`) or the output buffer itself
(`builder_ptr.add start`). -/
inductive CopySrc where
  | fromCol (start : Nat)
  | fromBuf (start : Nat)
deriving DecidableEq

/-- One `copy_nonoverlapping` performed by `take_primitive_types`,
together with `written`, the number of output cells already initialised
when the copy executes (the algorithm always writes left to right, so the
initialised region is the prefix `[0, written)`). -/
structure CopyOp where
  src : CopySrc
  dst : Nat
  len : Nat
  written : Nat
deriving DecidableEq

/-- Safety contract of one copy, relative to a source buffer of length
`colLen` and an output allocation of `rowNum` cells: the destination
starts exactly at the write frontier, stays inside the allocation, and a
buffer-to-buffer copy reads only previously-written cells (hence a region
disjoint from its destination). -/
def opSafe (colLen rowNum : Nat) (op : CopyOp) : Prop :=
  op.dst = op.written ∧ op.dst + op.len ≤ rowNum ∧
    (match op.src with
     | .fromBuf s => s + op.len ≤ op.written
     | .fromCol s => s + op.len ≤ colLen)

/-- Pointwise write of one cell, the image of a length-1
`copy_nonoverlapping` into the output allocation. -/
def writeAt (buf : Nat → Option α) (pos : Nat) (v : Option α) : Nat → Option α :=
  fun j => if j = pos then v else buf j

/-- State of the output allocation while `take_primitive_types` runs: the
cells written so far, the write offset, and the trace of copies
performed. -/
structure FillSt (α : Type u) where
  buf : Nat → Option α
  offset : Nat
  ops : List CopyOp

/-- The initial state: `Vec::with_capacity(row_num)` — nothing written. -/
def initSt : FillSt α := ⟨fun _ => none, 0, []⟩

/-- The doubling loop of `take_primitive_types`:
`while cur_segment < max_segment { copy [base, base+cur) to
[base+cur, base+2*cur); cur_segment <<= 1 }`.
The loop is driven by a fuel argument for structural termination; 32 units
of fuel are enough for every `u32` count (the segment at least doubles each
iteration and `max_segment ≤ 2 ^ 31`), so with the bounds carried by the
theorems below the fuelled loop is exactly the source loop. -/
def doubleLoop (base maxSeg : Nat) :
    (Nat → Option α) → Nat → List CopyOp → Nat → (Nat → Option α) × List CopyOp
  | buf, _, ops, 0 => (buf, ops)
  | buf, cur, ops, fuel + 1 =>
      if cur < maxSeg then
        doubleLoop base maxSeg
          (fun j => if base + cur ≤ j ∧ j < base + 2 * cur then buf (j - cur) else buf j)
          (2 * cur)
          (ops ++ [⟨.fromBuf base, base + cur, cur, base + cur⟩])
          fuel
      else (buf, ops)

/-- The body of the `for (index, cnt) in indices` loop of
`take_primitive_types`.  `cnt = 1` is the single-element fast path.  For
`cnt = 0` the source computes `31 - cnt.leading_zeros() = 31 - 32`, which
underflows (`none` here); otherwise the run is filled by one seed write,
the doubling loop, and a final remainder copy. -/
def fillRun (col : List α) (st : FillSt α) (index cnt : Nat) : Option (FillSt α) :=
  if cnt = 1 then
    some ⟨writeAt st.buf st.offset col[index]?, st.offset + 1,
          st.ops ++ [⟨.fromCol index, st.offset, 1, st.offset⟩]⟩
  else if cnt = 0 then
    none
  else
    let base := st.offset
    let buf1 := writeAt st.buf base col[index]?
    let maxSeg := maxSegment cnt
    let res := doubleLoop base maxSeg buf1 1 (st.ops ++ [⟨.fromCol index, base, 1, base⟩]) 32
    let remain := cnt - maxSeg
    let offset2 := st.offset + maxSeg
    if 0 < remain then
      some ⟨fun j => if offset2 ≤ j ∧ j < offset2 + remain then res.1 (j - maxSeg) else res.1 j,
            offset2 + remain,
            res.2 ++ [⟨.fromBuf base, offset2, remain, offset2⟩]⟩
    else
      some ⟨res.1, offset2, res.2⟩

/-- The full run loop of `take_primitive_types`. -/
def fillRuns (col : List α) : FillSt α → Runs → Option (FillSt α)
  | st, [] => some st
  | st, (index, cnt) :: rest =>
      match fillRun col st index cnt with
      | none => none
      | some st2 => fillRuns col st2 rest

/-- `Column::take_primitive_types`.  The `debug_assert_eq!` on the count
sum is the leading guard; the result is the written prefix of the output
allocation (`set_len(offset)`), with never-written cells read as `none`. -/
def take_primitive_types (col : List α) (indices : Runs) (row_num : Nat) :
    Option (List (Option α)) :=
  if sumCounts indices ≠ row_num then none
  else
    match fillRuns col initSt indices with
    | none => none
    | some st => some ((List.range st.offset).map st.buf)

/-- The cell-level expansion of a run list over a source buffer: each run
`(index, cnt)` contributes `cnt` copies of cell `col[index]?`. -/
def expandCells (col : List α) (runs : Runs) : List (Option α) :=
  runs.flatMap fun r => List.replicate r.2 col[r.1]?

/-- Follows the spec's words (§4.3): the naive per-element expansion that
`take_primitive_types` is claimed to refine — the buffer obtained by
concatenating, in run order, `cnt` contiguous copies of `buffer[index]`
for each run `(index, cnt)`. -/
def specExpand [Inhabited α] (col : List α) (runs : Runs) : List α :=
  runs.flatMap fun r => List.replicate r.2 (col.getD r.1 default)

/-- The shared shape of the per-item run loops (`take_bool_types` and
`take_compact_arg_types`): for each run, read the item at `index` once
(`none` when the unchecked read is out of bounds, which is undefined
behaviour in the source) and push it `cnt` times. -/
def pushRunCells (col : List β) : Runs → List (Option β)
  | [] => []
  | (index, cnt) :: rest => List.replicate cnt col[index]? ++ pushRunCells col rest

/-- `Column::take_bool_types`: the `debug_assert_eq!` on the count sum
followed by the per-bit push loop into a fresh bit builder. -/
def take_bool_types (col : List Bool) (indices : Runs) (row_num : Nat) :
    Option (List (Option Bool)) :=
  if sumCounts indices ≠ row_num then none
  else some (pushRunCells col indices)

/-- `Column::take_compact_arg_types`: the per-item push loop for
variable-length payloads (String/Bitmap/Variant).  Note: unlike the other
three fill routines, the source contains no `debug_assert_eq!` here, so
there is no count-sum guard.  `row_num` is only a capacity hint. -/
def take_compact_arg_types (col : List β) (indices : Runs) (row_num : Nat) :
    List (Option β) :=
  pushRunCells col indices

/-- Reading every cell of a builder out into a finished column payload;
`none` if some cell is an out-of-bounds read (undefined behaviour in the
source). -/
def collectCells : List (Option β) → Option (List β)
  | [] => some []
  | none :: _ => none
  | some x :: rest =>
      match collectCells rest with
      | none => none
      | some l => some (x :: l)

/-- The numeric kinds of `NumberColumn`
(`with_number_mapped_type!`). -/
inductive NumKind where
  | i8 | i16 | i32 | i64 | u8 | u16 | u32 | u64 | f32 | f64
deriving DecidableEq

/-- The two decimal kinds of `DecimalColumn`. -/
inductive DecKind where
  | d128 | d256
deriving DecidableEq

mutual

/-- Modelled from the spec (§3, Column): the closed tagged union of
physical column representations.  Payloads are opaque to the kernel (it
only copies them), so every fixed-width buffer is a `List Int` plus a
kind tag, a bitmap is a `List Bool`, and a variable-length item is a
`List Nat` of bytes.  `array`/`map` carry a contiguous inner column plus
the offsets delimiting each row's sub-sequence; `nullable` wraps an inner
column with a validity bitmap; `tuple` is a struct of columns (`Cols` is
the field list, mutually inductive so that structural recursion is
available). -/
inductive Col where
  | null (len : Nat)
  | emptyArray (len : Nat)
  | emptyMap (len : Nat)
  | number (kind : NumKind) (values : List Int)
  | decimal (kind : DecKind) (size : Nat) (values : List Int)
  | boolean (bits : List Bool)
  | string (items : List (List Nat))
  | timestamp (values : List Int)
  | date (values : List Int)
  | array (values : Col) (offsets : List Nat)
  | map (values : Col) (offsets : List Nat)
  | bitmap (items : List (List Nat))
  | nullable (column : Col) (validity : List Bool)
  | tuple (fields : Cols)
  | variant (items : List (List Nat))

inductive Cols where
  | nil
  | cons (c : Col) (cs : Cols)

end

mutual

/-- Modelled from the spec (§3): every column's row count is derivable
from its payload — buffer length, bitmap length, offsets length − 1, or
the first field of a tuple. -/
def Col.rowCount : Col → Nat
  | .null len => len
  | .emptyArray len => len
  | .emptyMap len => len
  | .number _ values => values.length
  | .decimal _ _ values => values.length
  | .boolean bits => bits.length
  | .string items => items.length
  | .timestamp values => values.length
  | .date values => values.length
  | .array _ offsets => offsets.length - 1
  | .map _ offsets => offsets.length - 1
  | .bitmap items => items.length
  | .nullable _ validity => validity.length
  | .tuple fields => Cols.firstRowCount fields
  | .variant items => items.length

def Cols.firstRowCount : Cols → Nat
  | .nil => 0
  | .cons c _ => Col.rowCount c

end

mutual

/-- Modelled from the spec (§3): `Column::slice` — the rows
`[start, start + len)` of a column, in canonical form (array/map offsets
re-based to a leading 0, the inner column sliced to the covered range).
The source asserts `start + len ≤ rowCount`; the model clamps instead,
and every use below stays inside that bound. -/
def Col.sliceRows : Col → Nat → Nat → Col
  | .null n, start, len => .null (min len (n - start))
  | .emptyArray n, start, len => .emptyArray (min len (n - start))
  | .emptyMap n, start, len => .emptyMap (min len (n - start))
  | .number k values, start, len => .number k ((values.drop start).take len)
  | .decimal k sz values, start, len => .decimal k sz ((values.drop start).take len)
  | .boolean bits, start, len => .boolean ((bits.drop start).take len)
  | .string items, start, len => .string ((items.drop start).take len)
  | .timestamp values, start, len => .timestamp ((values.drop start).take len)
  | .date values, start, len => .date ((values.drop start).take len)
  | .array values offsets, start, len =>
      .array (values.sliceRows (offsets.getD start 0)
          (offsets.getD (start + len) 0 - offsets.getD start 0))
        (((offsets.drop start).take (len + 1)).map (fun x => x - offsets.getD start 0))
  | .map values offsets, start, len =>
      .map (values.sliceRows (offsets.getD start 0)
          (offsets.getD (start + len) 0 - offsets.getD start 0))
        (((offsets.drop start).take (len + 1)).map (fun x => x - offsets.getD start 0))
  | .bitmap items, start, len => .bitmap ((items.drop start).take len)
  | .nullable column validity, start, len =>
      .nullable (column.sliceRows start len) ((validity.drop start).take len)
  | .tuple fields, start, len => .tuple (Cols.sliceRows fields start len)
  | .variant items, start, len => .variant ((items.drop start).take len)

def Cols.sliceRows : Cols → Nat → Nat → Cols
  | .nil, _, _ => .nil
  | .cons c cs, start, len => .cons (c.sliceRows start len) (Cols.sliceRows cs start len)

end

mutual

/-- Modelled from the spec (§6, capability interfaces):
`ColumnBuilder::append_column` — appending the rows of a same-kind column
(array/map offsets of the appended column are re-based onto the end of
the accumulated offsets).  Mismatched kinds never arise in the kernel;
the model returns the first argument unchanged for them. -/
def Col.appendRows : Col → Col → Col
  | .null a, .null b => .null (a + b)
  | .emptyArray a, .emptyArray b => .emptyArray (a + b)
  | .emptyMap a, .emptyMap b => .emptyMap (a + b)
  | .number k v1, .number _ v2 => .number k (v1 ++ v2)
  | .decimal k sz v1, .decimal _ _ v2 => .decimal k sz (v1 ++ v2)
  | .boolean b1, .boolean b2 => .boolean (b1 ++ b2)
  | .string i1, .string i2 => .string (i1 ++ i2)
  | .timestamp v1, .timestamp v2 => .timestamp (v1 ++ v2)
  | .date v1, .date v2 => .date (v1 ++ v2)
  | .array v1 o1, .array v2 o2 =>
      .array (v1.appendRows v2) (o1 ++ (o2.drop 1).map (fun x => x + o1.getLastD 0))
  | .map v1 o1, .map v2 o2 =>
      .map (v1.appendRows v2) (o1 ++ (o2.drop 1).map (fun x => x + o1.getLastD 0))
  | .bitmap i1, .bitmap i2 => .bitmap (i1 ++ i2)
  | .nullable c1 val1, .nullable c2 val2 => .nullable (c1.appendRows c2) (val1 ++ val2)
  | .tuple f1, .tuple f2 => .tuple (Cols.appendRows f1 f2)
  | .variant i1, .variant i2 => .variant (i1 ++ i2)
  | a, _ => a

def Cols.appendRows : Cols → Cols → Cols
  | .cons c cs, .cons d ds => .cons (c.appendRows d) (Cols.appendRows cs ds)
  | cs, _ => cs

end

mutual

/-- Modelled from the spec (§6): `ColumnBuilder::with_capacity(ty, _)`
followed by `build()` — the empty column of the same kind (array/map
builders start with the single offset 0). -/
def Col.emptyLike : Col → Col
  | .null _ => .null 0
  | .emptyArray _ => .emptyArray 0
  | .emptyMap _ => .emptyMap 0
  | .number k _ => .number k []
  | .decimal k sz _ => .decimal k sz []
  | .boolean _ => .boolean []
  | .string _ => .string []
  | .timestamp _ => .timestamp []
  | .date _ => .date []
  | .array v _ => .array v.emptyLike [0]
  | .map v _ => .map v.emptyLike [0]
  | .bitmap _ => .bitmap []
  | .nullable c _ => .nullable c.emptyLike []
  | .tuple fs => .tuple (Cols.emptyLike fs)
  | .variant _ => .variant []

def Cols.emptyLike : Cols → Cols
  | .nil => .nil
  | .cons c cs => .cons c.emptyLike (Cols.emptyLike cs)

end

/-- Non-decreasing adjacent pairs, decidably. -/
def pairwiseLe : List Nat → Bool
  | [] => true
  | [_] => true
  | a :: b :: rest => decide (a ≤ b) && pairwiseLe (b :: rest)

mutual

/-- Modelled from the spec (§3, Invariants), decidably: array/map offsets
are non-empty, start at 0, are non-decreasing and end at the inner
column's row count; a nullable column's validity bitmap has the inner
row count; all tuple fields share the tuple's row count. -/
def Col.wfb : Col → Bool
  | .null _ | .emptyArray _ | .emptyMap _ => true
  | .number _ _ | .decimal _ _ _ | .boolean _ | .string _ => true
  | .timestamp _ | .date _ | .bitmap _ | .variant _ => true
  | .array v off =>
      v.wfb && decide (off ≠ []) && decide (off.getD 0 0 = 0) && pairwiseLe off &&
        decide (off.getLastD 0 = v.rowCount)
  | .map v off =>
      v.wfb && decide (off ≠ []) && decide (off.getD 0 0 = 0) && pairwiseLe off &&
        decide (off.getLastD 0 = v.rowCount)
  | .nullable c validity => c.wfb && decide (validity.length = c.rowCount)
  | .tuple fs => Cols.wfbAll fs (Cols.firstRowCount fs)

def Cols.wfbAll : Cols → Nat → Bool
  | .nil, _ => true
  | .cons c cs, n => c.wfb && decide (c.rowCount = n) && Cols.wfbAll cs n

end

/-- The length of the scalar item at position `index` of an array/map
column with the given offsets: `offsets[index+1] - offsets[index]`. -/
def arrayRowLen (offsets : List Nat) (index : Nat) : Nat :=
  offsets.getD (index + 1) 0 - offsets.getD index 0

/-- One `T::push_item` of `take_scalar_types` at an array/map column: the
item is the slice of the inner column delimited by
`offsets[index] .. offsets[index+1]`; its rows are appended to the inner
builder and the cumulative length is pushed onto the offsets builder.
An out-of-bounds `index` is the source's undefined behaviour; the model
totalises the offset reads with `getD`. -/
def pushNestedOne (src : Col) (offsets : List Nat) (st : Col × List Nat)
    (index : Nat) : Col × List Nat :=
  (st.1.appendRows (src.sliceRows (offsets.getD index 0) (arrayRowLen offsets index)),
   st.2 ++ [st.2.getLastD 0 + arrayRowLen offsets index])

/-- The inner `for _ in 0..*cnt` loop of `take_scalar_types`: push the
item at `index` `cnt` times. -/
def pushNestedRepeat (src : Col) (offsets : List Nat) (index : Nat) :
    Col × List Nat → Nat → Col × List Nat
  | st, 0 => st
  | st, cnt + 1 => pushNestedRepeat src offsets index (pushNestedOne src offsets st index) cnt

/-- The outer run loop of `take_scalar_types`. -/
def pushNestedRuns (src : Col) (offsets : List Nat) :
    Col × List Nat → Runs → Col × List Nat
  | st, [] => st
  | st, (index, cnt) :: rest =>
      pushNestedRuns src offsets (pushNestedRepeat src offsets index st cnt) rest

/-- The flattened form of the nested push loops: one push per selected
row, in order. -/
def pushNestedFlat (src : Col) (offsets : List Nat) :
    Col × List Nat → List Nat → Col × List Nat
  | st, [] => st
  | st, index :: rest => pushNestedFlat src offsets (pushNestedOne src offsets st index) rest

/-- `Column::take_scalar_types` instantiated at an array/map column (the
only instantiations in the kernel): the `debug_assert_eq!` on the count
sum, then the nested push loops starting from the empty inner builder and
the offsets builder seeded with 0.  Returns the built inner column and
offsets. -/
def take_scalar_types_nested (values : Col) (offsets : List Nat) (indices : Runs)
    (row_num : Nat) : Option (Col × List Nat) :=
  if sumCounts indices ≠ row_num then none
  else some (pushNestedRuns values offsets (values.emptyLike, [0]) indices)

/-- The per-output-row source indices denoted by a run list. -/
def selRows (runs : Runs) : List Nat :=
  runs.flatMap fun r => List.replicate r.2 r.1

/-- The cumulative offsets emitted by the nested push loop: starting from
total `t`, each selected row `i` contributes `t + arrayRowLen offsets i`. -/
def cumFrom (offsets : List Nat) (t : Nat) : List Nat → List Nat
  | [] => []
  | i :: rest => (t + arrayRowLen offsets i) :: cumFrom offsets (t + arrayRowLen offsets i) rest

mutual

/-- `Column::take_compacted_indices`: the tag dispatch of the
column-level kernel.  Placeholder kinds are sliced to `indices.len()`
(this is what the source does — see the `length` binding); fixed-width
kinds go through `take_primitive_types`; booleans through
`take_bool_types`; String/Bitmap/Variant through
`take_compact_arg_types`; array/map through `take_scalar_types`;
nullable and tuple recurse.  `none` models a panic or undefined
behaviour on malformed input. -/
def Col.takeCompacted : Col → Runs → Nat → Option Col
  | .null n, indices, _ => some ((Col.null n).sliceRows 0 indices.length)
  | .emptyArray n, indices, _ => some ((Col.emptyArray n).sliceRows 0 indices.length)
  | .emptyMap n, indices, _ => some ((Col.emptyMap n).sliceRows 0 indices.length)
  | .number k values, indices, row_num =>
      match take_primitive_types values indices row_num with
      | none => none
      | some cells =>
          match collectCells cells with
          | none => none
          | some vals => some (.number k vals)
  | .decimal k sz values, indices, row_num =>
      match take_primitive_types values indices row_num with
      | none => none
      | some cells =>
          match collectCells cells with
          | none => none
          | some vals => some (.decimal k sz vals)
  | .boolean bits, indices, row_num =>
      match take_bool_types bits indices row_num with
      | none => none
      | some cells =>
          match collectCells cells with
          | none => none
          | some vals => some (.boolean vals)
  | .string items, indices, row_num =>
      match collectCells (take_compact_arg_types items indices row_num) with
      | none => none
      | some vals => some (.string vals)
  | .timestamp values, indices, row_num =>
      match take_primitive_types values indices row_num with
      | none => none
      | some cells =>
          match collectCells cells with
          | none => none
          | some vals => some (.timestamp vals)
  | .date values, indices, row_num =>
      match take_primitive_types values indices row_num with
      | none => none
      | some cells =>
          match collectCells cells with
          | none => none
          | some vals => some (.date vals)
  | .array values offsets, indices, row_num =>
      match take_scalar_types_nested values offsets indices row_num with
      | none => none
      | some st => some (.array st.1 st.2)
  | .map values offsets, indices, row_num =>
      match take_scalar_types_nested values offsets indices row_num with
      | none => none
      | some st => some (.map st.1 st.2)
  | .bitmap items, indices, row_num =>
      match collectCells (take_compact_arg_types items indices row_num) with
      | none => none
      | some vals => some (.bitmap vals)
  | .nullable column validity, indices, row_num =>
      match column.takeCompacted indices row_num with
      | none => none
      | some inner =>
          match take_bool_types validity indices row_num with
          | none => none
          | some cells =>
              match collectCells cells with
              | none => none
              | some bits => some (.nullable inner bits)
  | .tuple fields, indices, row_num =>
      match Cols.takeCompacted fields indices row_num with
      | none => none
      | some fs => some (.tuple fs)
  | .variant items, indices, row_num =>
      match collectCells (take_compact_arg_types items indices row_num) with
      | none => none
      | some vals => some (.variant vals)

def Cols.takeCompacted : Cols → Runs → Nat → Option Cols
  | .nil, _, _ => some .nil
  | .cons c cs, indices, row_num =>
      match c.takeCompacted indices row_num, Cols.takeCompacted cs indices row_num with
      | some c2, some cs2 => some (.cons c2 cs2)
      | _, _ => none

end

/-- The identity run list `[(0,1), (1,1), …, (n-1,1)]`. -/
def idRuns (n : Nat) : Runs :=
  (List.range n).map fun i => (i, 1)

/-- A batch entry value: a broadcast scalar (kept opaque) or a
materialised column. -/
inductive EntryVal (σ : Type v) where
  | scalar (s : σ)
  | column (c : Col)

/-- `BlockEntry`: a logical data type (kept opaque) plus a value. -/
structure BlockEntry (σ : Type v) (τ : Type w) where
  ty : τ
  val : EntryVal σ

/-- Modelled from the spec (§3, Record batch): an ordered list of entries
sharing one row count. -/
structure DataBlock (σ : Type v) (τ : Type w) where
  entries : List (BlockEntry σ τ)
  rowNum : Nat

/-- Modelled from the spec: `self.slice(0..0)` on an entry — scalars are
kept, columns are sliced to zero rows; the data type is preserved. -/
def BlockEntry.slice0 (e : BlockEntry σ τ) : BlockEntry σ τ :=
  { e with val := match e.val with
      | .scalar s => .scalar s
      | .column c => .column (c.sliceRows 0 0) }

/-- Modelled from the spec: `self.slice(0..0)` on a batch — the zero-row
slice preserving schema and entry types. -/
def DataBlock.sliceZero (b : DataBlock σ τ) : DataBlock σ τ :=
  ⟨b.entries.map BlockEntry.slice0, 0⟩

/-- One entry of the non-empty path of `DataBlock::take_compacted_indices`:
scalars are cloned as-is, columns delegate to
`Column::take_compacted_indices`. -/
def entryTake (indices : Runs) (row_num : Nat) (e : BlockEntry σ τ) :
    Option (BlockEntry σ τ) :=
  match e.val with
  | .scalar s => some ⟨e.ty, .scalar s⟩
  | .column c =>
      match c.takeCompacted indices row_num with
      | none => none
      | some c2 => some ⟨e.ty, .column c2⟩

/-- The entry loop of the non-empty path. -/
def takeEntries (indices : Runs) (row_num : Nat) :
    List (BlockEntry σ τ) → Option (List (BlockEntry σ τ))
  | [] => some []
  | e :: rest =>
      match entryTake indices row_num e, takeEntries indices row_num rest with
      | some e2, some rest2 => some (e2 :: rest2)
      | _, _ => none

/-- `DataBlock::take_compacted_indices`.  The source returns
`Result<DataBlock>` but never constructs an `Err` (`some` is `Ok`); a
panic or undefined behaviour inside the column kernel is `none`.  An
empty run list short-circuits to the zero-row slice, ignoring
`row_num`. -/
def DataBlock.take_compacted_indices (b : DataBlock σ τ) (indices : Runs)
    (row_num : Nat) : Option (DataBlock σ τ) :=
  if indices.isEmpty then some b.sliceZero
  else
    match takeEntries indices row_num b.entries with
    | none => none
    | some es => some ⟨es, row_num⟩

theorem sumCounts_foldl_shift (indices : Runs) :
    ∀ a : Nat, indices.foldl (fun acc r => acc + r.2) a = a + sumCounts indices := by
  induction indices with
  | nil => intro a; simp [sumCounts]
  | cons r rest ih =>
      intro a
      simp only [sumCounts, List.foldl_cons] at *
      rw [ih (a + r.2), ih (0 + r.2)]
      omega

theorem sumCounts_cons (r : Nat × Nat) (rest : Runs) :
    sumCounts (r :: rest) = r.2 + sumCounts rest := by
  have h : sumCounts (r :: rest) = List.foldl (fun acc x => acc + x.2) (0 + r.2) rest := rfl
  rw [h, sumCounts_foldl_shift]
  omega

theorem sumCounts_nil : sumCounts [] = 0 := rfl

theorem bitLen_zero : ∀ fuel, bitLen fuel 0 = 0
  | 0 => rfl
  | _ + 1 => by simp [bitLen]

theorem bitLen_eq_log2 : ∀ (fuel n : Nat), 0 < n → n < 2 ^ fuel →
    bitLen fuel n = Nat.log2 n + 1 := by
  intro fuel
  induction fuel with
  | zero => intro n h0 h1; omega
  | succ fuel ih =>
      intro n h0 h1
      simp only [bitLen, if_neg (by omega : ¬ n = 0)]
      by_cases h2 : 2 ≤ n
      · have hhalf : 0 < n / 2 := by omega
        have hhalf2 : n / 2 < 2 ^ fuel := by
          have hp : 2 ^ (fuel + 1) = 2 ^ fuel * 2 := by rw [Nat.pow_succ]
          omega
        rw [ih (n / 2) hhalf hhalf2]
        conv_rhs => rw [Nat.log2]
        rw [if_pos h2]
      · have hn1 : n = 1 := by omega
        subst hn1
        have hl1 : Nat.log2 1 = 0 := by
          rw [Nat.log2]
          norm_num
        rw [hl1, show (1 : Nat) / 2 = 0 from rfl, bitLen_zero]

theorem maxSegment_eq_pow_log2 (cnt : Nat) (h1 : 0 < cnt) (h32 : cnt < 2 ^ 32) :
    maxSegment cnt = 2 ^ Nat.log2 cnt := by
  have hne : cnt ≠ 0 := Nat.pos_iff_ne_zero.mp h1
  have hlog : Nat.log2 cnt < 32 := (Nat.log2_lt hne).mpr h32
  have hbl : bitLen 32 cnt = Nat.log2 cnt + 1 := bitLen_eq_log2 32 cnt h1 h32
  simp only [maxSegment, leadingZeros32, hbl]
  congr 1
  omega

theorem maxSegment_le (cnt : Nat) (h1 : 0 < cnt) (h32 : cnt < 2 ^ 32) :
    maxSegment cnt ≤ cnt := by
  rw [maxSegment_eq_pow_log2 cnt h1 h32]
  exact Nat.log2_self_le (Nat.pos_iff_ne_zero.mp h1)

theorem lt_two_mul_maxSegment (cnt : Nat) (h1 : 0 < cnt) (h32 : cnt < 2 ^ 32) :
    cnt < 2 * maxSegment cnt := by
  rw [maxSegment_eq_pow_log2 cnt h1 h32]
  have := Nat.lt_log2_self (n := cnt)
  calc cnt < 2 ^ (Nat.log2 cnt + 1) := this
    _ = 2 ^ Nat.log2 cnt * 2 := by rw [Nat.pow_succ]
    _ = 2 * 2 ^ Nat.log2 cnt := by omega

theorem expandCells_nil (col : List α) : expandCells col [] = [] := rfl

theorem expandCells_cons (col : List α) (r : Nat × Nat) (rest : Runs) :
    expandCells col (r :: rest) =
      List.replicate r.2 col[r.1]? ++ expandCells col rest := by
  simp [expandCells]

theorem length_expandCells (col : List α) (runs : Runs) :
    (expandCells col runs).length = sumCounts runs := by
  induction runs with
  | nil => rfl
  | cons r rest ih =>
      rw [expandCells_cons, sumCounts_cons, List.length_append, List.length_replicate, ih]

theorem expandCells_eq_map_some (col : List α) (runs : Runs) (d : α)
    (h : ∀ r ∈ runs, r.1 < col.length) :
    expandCells col runs =
      (runs.flatMap fun r => List.replicate r.2 (col.getD r.1 d)).map some := by
  induction runs with
  | nil => rfl
  | cons r rest ih =>
      have hr : r.1 < col.length := h r (List.mem_cons_self r rest)
      rw [expandCells_cons]
      have hrest := ih fun x hx => h x (List.mem_cons_of_mem r hx)
      have hcell : col[r.1]? = some (col.getD r.1 d) := by
        rw [List.getElem?_eq_getElem hr, List.getD_eq_getElem?_getD,
          List.getElem?_eq_getElem hr]
        rfl
      simp only [List.flatMap_cons, List.map_append, List.map_replicate, hcell, hrest]

theorem doubleLoop_buf (base k maxSeg : Nat) (hms : maxSeg = 2 ^ k) (v : Option α) :
    ∀ (fuel i cur : Nat) (buf : Nat → Option α) (ops : List CopyOp),
      cur = 2 ^ i → i ≤ k → k - i ≤ fuel →
      (∀ x, base ≤ x → x < base + cur → buf x = v) →
      ∀ j, (doubleLoop base maxSeg buf cur ops fuel).1 j =
        if base ≤ j ∧ j < base + maxSeg then v else buf j := by
  intro fuel
  induction fuel with
  | zero =>
      intro i cur buf ops hcur hik hfuel hfill j
      have hik' : i = k := by omega
      subst hik' hcur hms
      simp only [doubleLoop]
      by_cases hj : base ≤ j ∧ j < base + 2 ^ i
      · rw [if_pos hj]; exact hfill j hj.1 hj.2
      · rw [if_neg hj]
  | succ fuel ih =>
      intro i cur buf ops hcur hik hfuel hfill j
      simp only [doubleLoop]
      by_cases hlt : cur < maxSeg
      · rw [if_pos hlt]
        have hik2 : i < k := by
          by_contra hk
          have : k = i := by omega
          subst this
          omega
        have hcur2 : 2 * cur = 2 ^ (i + 1) := by rw [hcur, Nat.pow_succ]; ring
        have hfill2 : ∀ x, base ≤ x → x < base + 2 * cur →
            (fun j => if base + cur ≤ j ∧ j < base + 2 * cur then buf (j - cur) else buf j) x
              = v := by
          intro x hx1 hx2
          by_cases hx : base + cur ≤ x ∧ x < base + 2 * cur
          · simp only [if_pos hx]
            have hcpos : 0 < cur := by rw [hcur]; exact Nat.pos_pow_of_pos i (by omega)
            exact hfill (x - cur) (by omega) (by omega)
          · simp only [if_neg hx]
            exact hfill x hx1 (by omega)
        have hres := ih (i + 1) (2 * cur)
          (fun j => if base + cur ≤ j ∧ j < base + 2 * cur then buf (j - cur) else buf j)
          (ops ++ [⟨.fromBuf base, base + cur, cur, base + cur⟩])
          hcur2 (by omega) (by omega) hfill2 j
        rw [hres]
        by_cases hj : base ≤ j ∧ j < base + maxSeg
        · rw [if_pos hj, if_pos hj]
        · rw [if_neg hj, if_neg hj]
          have hsub : base + 2 * cur ≤ base + maxSeg := by
            rw [hcur2, hms]
            have : 2 ^ (i + 1) ≤ 2 ^ k := Nat.pow_le_pow_right (by omega) (by omega)
            omega
          have hout : ¬ (base + cur ≤ j ∧ j < base + 2 * cur) := by omega
          rw [if_neg hout]
      · rw [if_neg hlt]
        have hik' : i = k := by
          by_contra hk
          have hik2 : i < k := by omega
          have : cur < maxSeg := by
            rw [hcur, hms]
            exact Nat.pow_lt_pow_right (by omega) hik2
          exact hlt this
        subst hik'
        have hcm : cur = maxSeg := by rw [hcur, hms]
        subst hcm
        by_cases hj : base ≤ j ∧ j < base + cur
        · rw [if_pos hj]; exact hfill j hj.1 hj.2
        · rw [if_neg hj]

theorem doubleLoop_ops (base k maxSeg : Nat) (hms : maxSeg = 2 ^ k) :
    ∀ (fuel i cur : Nat) (buf : Nat → Option α) (ops : List CopyOp),
      cur = 2 ^ i → i ≤ k →
      ∀ op ∈ (doubleLoop base maxSeg buf cur ops fuel).2, op ∈ ops ∨
        ∃ c, 0 < c ∧ 2 * c ≤ maxSeg ∧ op = ⟨.fromBuf base, base + c, c, base + c⟩ := by
  intro fuel
  induction fuel with
  | zero =>
      intro i cur buf ops hcur hik op hop
      exact Or.inl hop
  | succ fuel ih =>
      intro i cur buf ops hcur hik op hop
      simp only [doubleLoop] at hop
      by_cases hlt : cur < maxSeg
      · rw [if_pos hlt] at hop
        have hik2 : i < k := by
          by_contra hk
          have : k = i := by omega
          subst this
          rw [hcur, ← hms] at hlt
          omega
        have hcur2 : 2 * cur = 2 ^ (i + 1) := by rw [hcur, Nat.pow_succ]; ring
        have := ih (i + 1) (2 * cur) _ _ hcur2 (by omega) op hop
        rcases this with hin | hc
        · rcases List.mem_append.mp hin with hin2 | hnew
          · exact Or.inl hin2
          · refine Or.inr ⟨cur, ?_, ?_, ?_⟩
            · rw [hcur]; exact Nat.pos_pow_of_pos i (by omega)
            · rw [hcur2, hms]; exact Nat.pow_le_pow_right (by omega) (by omega)
            · simpa using hnew
        · exact Or.inr hc
      · rw [if_neg hlt] at hop
        exact Or.inl hop

theorem fillRun_spec (col : List α) (st : FillSt α) (index cnt : Nat)
    (h1 : 0 < cnt) (h32 : cnt < 2 ^ 32) :
    ∃ st2, fillRun col st index cnt = some st2 ∧
      st2.offset = st.offset + cnt ∧
      (∀ j, st2.buf j =
        if st.offset ≤ j ∧ j < st.offset + cnt then col[index]? else st.buf j) ∧
      (∀ op ∈ st2.ops, op ∈ st.ops ∨
        (op.dst = op.written ∧ st.offset ≤ op.dst ∧ op.dst + op.len ≤ st.offset + cnt ∧
          (match op.src with
           | .fromBuf s => s + op.len ≤ op.written
           | .fromCol s => s = index ∧ op.len = 1))) := by
  by_cases hc1 : cnt = 1
  · subst hc1
    refine ⟨⟨writeAt st.buf st.offset col[index]?, st.offset + 1,
        st.ops ++ [(⟨.fromCol index, st.offset, 1, st.offset⟩ : CopyOp)]⟩, by rfl, rfl, ?_, ?_⟩
    · intro j
      by_cases hj : st.offset ≤ j ∧ j < st.offset + 1
      · have : j = st.offset := by omega
        subst this
        simp [writeAt, if_pos hj]
      · have hne : j ≠ st.offset := by omega
        simp [writeAt, hne, if_neg hj]
    · intro op hop
      rcases List.mem_append.mp hop with hin | hnew
      · exact Or.inl hin
      · simp only [List.mem_singleton] at hnew
        subst hnew
        exact Or.inr ⟨rfl, Nat.le_refl _, Nat.le_refl _, ⟨rfl, rfl⟩⟩
  · have hc0 : ¬ cnt = 0 := by omega
    have hms := maxSegment_eq_pow_log2 cnt h1 h32
    have hmsle := maxSegment_le cnt h1 h32
    have hmslt := lt_two_mul_maxSegment cnt h1 h32
    have hklt : Nat.log2 cnt < 32 := (Nat.log2_lt (by omega)).mpr h32
    have hbuf := doubleLoop_buf (α := α) st.offset (Nat.log2 cnt) (maxSegment cnt) hms
      col[index]? 32 0 1 (writeAt st.buf st.offset col[index]?)
      (st.ops ++ [⟨.fromCol index, st.offset, 1, st.offset⟩])
      (by rw [Nat.pow_zero]) (by omega) (by omega)
      (by
        intro x hx1 hx2
        have : x = st.offset := by omega
        subst this
        simp [writeAt])
    have hops := doubleLoop_ops (α := α) st.offset (Nat.log2 cnt) (maxSegment cnt) hms
      32 0 1 (writeAt st.buf st.offset col[index]?)
      (st.ops ++ [⟨.fromCol index, st.offset, 1, st.offset⟩])
      (by rw [Nat.pow_zero]) (by omega)
    simp only [fillRun, if_neg hc1, if_neg hc0]
    by_cases hrem : 0 < cnt - maxSegment cnt
    · rw [if_pos hrem]
      refine ⟨_, rfl, ?_, ?_, ?_⟩
      · show st.offset + maxSegment cnt + (cnt - maxSegment cnt) = st.offset + cnt
        omega
      · intro j
        dsimp only
        by_cases hj1 : st.offset + maxSegment cnt ≤ j ∧
            j < st.offset + maxSegment cnt + (cnt - maxSegment cnt)
        · rw [if_pos hj1, hbuf (j - maxSegment cnt), if_pos (by omega),
            if_pos (by omega)]
        · rw [if_neg hj1, hbuf j]
          by_cases hj2 : st.offset ≤ j ∧ j < st.offset + maxSegment cnt
          · rw [if_pos hj2, if_pos (by omega)]
          · rw [if_neg hj2]
            have hj3 : ¬ (st.offset ≤ j ∧ j < st.offset + cnt) := by omega
            rw [if_neg hj3, writeAt, if_neg (by omega)]
      · intro op hop
        dsimp only at hop
        rcases List.mem_append.mp hop with hd | hnew
        · rcases hops op hd with hin | hc
          · rcases List.mem_append.mp hin with hin2 | hseed
            · exact Or.inl hin2
            · simp only [List.mem_singleton] at hseed
              subst hseed
              refine Or.inr ⟨rfl, Nat.le_refl _, ?_, ⟨rfl, rfl⟩⟩
              show st.offset + 1 ≤ st.offset + cnt
              omega
          · rcases hc with ⟨c, hcpos, hc2, rfl⟩
            refine Or.inr ⟨rfl, ?_, ?_, ?_⟩
            · show st.offset ≤ st.offset + c
              omega
            · show st.offset + c + c ≤ st.offset + cnt
              omega
            · show st.offset + c ≤ st.offset + c
              omega
        · simp only [List.mem_singleton] at hnew
          subst hnew
          refine Or.inr ⟨rfl, ?_, ?_, ?_⟩
          · show st.offset ≤ st.offset + maxSegment cnt
            omega
          · show st.offset + maxSegment cnt + (cnt - maxSegment cnt) ≤ st.offset + cnt
            omega
          · show st.offset + (cnt - maxSegment cnt) ≤ st.offset + maxSegment cnt
            omega
    · rw [if_neg hrem]
      have hcm : cnt = maxSegment cnt := by omega
      refine ⟨_, rfl, ?_, ?_, ?_⟩
      · show st.offset + maxSegment cnt = st.offset + cnt
        omega
      · intro j
        dsimp only
        rw [hbuf j, ← hcm]
        by_cases hj : st.offset ≤ j ∧ j < st.offset + cnt
        · rw [if_pos hj, if_pos hj]
        · rw [if_neg hj, if_neg hj, writeAt, if_neg (by omega)]
      · intro op hop
        dsimp only at hop
        rcases hops op hop with hin | hc
        · rcases List.mem_append.mp hin with hin2 | hseed
          · exact Or.inl hin2
          · simp only [List.mem_singleton] at hseed
            subst hseed
            refine Or.inr ⟨rfl, Nat.le_refl _, ?_, ⟨rfl, rfl⟩⟩
            show st.offset + 1 ≤ st.offset + cnt
            omega
        · rcases hc with ⟨c, hcpos, hc2, rfl⟩
          refine Or.inr ⟨rfl, ?_, ?_, ?_⟩
          · show st.offset ≤ st.offset + c
            omega
          · show st.offset + c + c ≤ st.offset + cnt
            omega
          · show st.offset + c ≤ st.offset + c
            omega

theorem fillRuns_spec (col : List α) :
    ∀ (runs : Runs) (st : FillSt α),
      (∀ r ∈ runs, r.1 < col.length ∧ 0 < r.2 ∧ r.2 < 2 ^ 32) →
      ∃ st2, fillRuns col st runs = some st2 ∧
        st2.offset = st.offset + sumCounts runs ∧
        (∀ j, st2.buf j =
          if st.offset ≤ j ∧ j < st.offset + sumCounts runs
          then (expandCells col runs)[j - st.offset]?.getD none
          else st.buf j) ∧
        (∀ op ∈ st2.ops, op ∈ st.ops ∨
          (op.dst = op.written ∧ st.offset ≤ op.dst ∧
            op.dst + op.len ≤ st.offset + sumCounts runs ∧
            (match op.src with
             | .fromBuf s => s + op.len ≤ op.written
             | .fromCol s => s + op.len ≤ col.length))) := by
  intro runs
  induction runs with
  | nil =>
      intro st _
      refine ⟨st, rfl, by rw [sumCounts_nil]; omega, ?_, fun op hop => Or.inl hop⟩
      intro j
      rw [sumCounts_nil, expandCells_nil]
      rw [if_neg (by omega)]
  | cons r rest ih =>
      intro st hwf
      obtain ⟨index, cnt⟩ := r
      have hw := hwf (index, cnt) (List.mem_cons_self _ _)
      obtain ⟨st2, heq, hoff2, hbuf2, hops2⟩ :=
        fillRun_spec col st index cnt hw.2.1 hw.2.2
      obtain ⟨st3, heq3, hoff3, hbuf3, hops3⟩ :=
        ih st2 fun x hx => hwf x (List.mem_cons_of_mem _ hx)
      refine ⟨st3, ?_, ?_, ?_, ?_⟩
      · simp only [fillRuns, heq, heq3]
      · rw [hoff3, hoff2, sumCounts_cons]; omega
      · intro j
        rw [hbuf3 j, sumCounts_cons, expandCells_cons]
        by_cases hj1 : st2.offset ≤ j ∧ j < st2.offset + sumCounts rest
        · rw [if_pos hj1, if_pos (by omega)]
          rw [List.getElem?_append_right (by simp only [List.length_replicate]; omega)]
          simp only [List.length_replicate]
          have hidx : j - st.offset - cnt = j - st2.offset := by omega
          rw [hidx]
        · rw [if_neg hj1, hbuf2 j]
          by_cases hj2 : st.offset ≤ j ∧ j < st.offset + cnt
          · rw [if_pos hj2, if_pos (by omega)]
            rw [List.getElem?_append, if_pos (by simp only [List.length_replicate]; omega),
              List.getElem?_replicate, if_pos (by omega)]
            rfl
          · rw [if_neg hj2, if_neg (by omega)]
      · intro op hop
        rcases hops3 op hop with hin2 | hP2
        · rcases hops2 op hin2 with hin | hP1
          · exact Or.inl hin
          · refine Or.inr ⟨hP1.1, hP1.2.1, by rw [sumCounts_cons]; omega, ?_⟩
            rcases hsrc : op.src with s | s
            · simp only [hsrc] at hP1 ⊢
              obtain ⟨hs, hlen⟩ := hP1.2.2.2
              omega
            · simp only [hsrc] at hP1 ⊢
              exact hP1.2.2.2
        · refine Or.inr ⟨hP2.1, by omega, by rw [sumCounts_cons]; omega, ?_⟩
          rcases hsrc : op.src with s | s
          · simp only [hsrc] at hP2 ⊢
            exact hP2.2.2.2
          · simp only [hsrc] at hP2 ⊢
            exact hP2.2.2.2

theorem take_primitive_types_eq_expand (col : List α) (runs : Runs) (row_num : Nat)
    (hsum : sumCounts runs = row_num)
    (hwf : ∀ r ∈ runs, r.1 < col.length ∧ 0 < r.2 ∧ r.2 < 2 ^ 32) :
    take_primitive_types col runs row_num = some (expandCells col runs) := by
  obtain ⟨st, heq, hoff, hbuf, -⟩ := fillRuns_spec col runs initSt hwf
  have hoff0 : st.offset = sumCounts runs := by
    rw [hoff]; dsimp only [initSt]; omega
  simp only [take_primitive_types, if_neg (show ¬ sumCounts runs ≠ row_num by omega), heq]
  congr 1
  apply List.ext_getElem
  · simp only [List.length_map, List.length_range, length_expandCells, hoff0]
  · intro n h1 h2
    rw [List.getElem_map, List.getElem_range, hbuf n]
    dsimp only [initSt]
    have hn : n < sumCounts runs := by
      simp only [List.length_map, List.length_range, hoff0] at h1
      exact h1
    rw [if_pos ⟨Nat.zero_le n, by omega⟩]
    simp only [Nat.sub_zero]
    rw [List.getElem?_eq_getElem (by rw [length_expandCells]; exact hn)]
    rfl

theorem pushRunCells_eq_expand (col : List β) : ∀ runs : Runs,
    pushRunCells col runs = expandCells col runs := by
  intro runs
  induction runs with
  | nil => rfl
  | cons r rest ih =>
      obtain ⟨index, cnt⟩ := r
      rw [pushRunCells, ih, expandCells_cons]

theorem collectCells_map_some (l : List β) :
    collectCells (l.map some) = some l := by
  induction l with
  | nil => rfl
  | cons x rest ih => simp [collectCells, ih]

theorem expandCells_ne_none (col : List β) : ∀ (runs : Runs),
    (∀ r ∈ runs, r.1 < col.length) → ∀ x ∈ expandCells col runs, x ≠ none := by
  intro runs
  induction runs with
  | nil => intro _ x hx; simp [expandCells_nil] at hx
  | cons r rest ih =>
      intro h x hx
      rw [expandCells_cons, List.mem_append] at hx
      rcases hx with hx | hx
      · have := List.eq_of_mem_replicate hx
        subst this
        rw [List.getElem?_eq_getElem (h r (List.mem_cons_self r rest))]
        exact Option.some_ne_none _
      · exact ih (fun s hs => h s (List.mem_cons_of_mem r hs)) x hx

/-- Claim C1 — corrected.  As stated the claim quantifies over every run
list whose counts sum to `row_num` with in-bounds indices; a run with
`repeat_count = 0` satisfies both preconditions, yet on it the doubling
path computes `31 - cnt.leading_zeros() = 31 - 32`, which underflows (a
panic in a debug build, wrapping and a wild copy in release), so the
result is not the naive expansion there.  This counterexample shows the
claim false at `col = [10]`, `runs = [(0, 0)]`, `row_num = 0`. -/
theorem take_primitive_types_zero_count_cex :
    (sumCounts [(0, 0)] = 0 ∧ ∀ r ∈ ([(0, 0)] : Runs), r.1 < List.length ([10] : List Int)) ∧
    take_primitive_types ([10] : List Int) [(0, 0)] 0 ≠
      some ((specExpand ([10] : List Int) [(0, 0)]).map some) := by
  decide

/-- Claim C1 — amended: with the additional precondition that every
repeat count is positive (and, per the `u32` type of the counts, below
`2 ^ 32`), `take_primitive_types` is extensionally equal to the naive
per-element expansion: it returns exactly the concatenation, in run
order, of `cnt` contiguous copies of `col[index]` for each run
`(index, cnt)`, every cell written. -/
theorem take_primitive_types_refines_specExpand {α : Type} [Inhabited α]
    (col : List α) (runs : Runs) (row_num : Nat)
    (hsum : sumCounts runs = row_num)
    (hidx : ∀ r ∈ runs, r.1 < col.length)
    (hcnt : ∀ r ∈ runs, 0 < r.2 ∧ r.2 < 2 ^ 32) :
    take_primitive_types col runs row_num = some ((specExpand col runs).map some) ∧
    (specExpand col runs).length = row_num := by
  have hmap : expandCells col runs = (specExpand col runs).map some :=
    expandCells_eq_map_some col runs default hidx
  have heq := take_primitive_types_eq_expand col runs row_num hsum
    (fun r hr => ⟨hidx r hr, (hcnt r hr).1, (hcnt r hr).2⟩)
  constructor
  · rw [heq, hmap]
  · have hlen := congrArg List.length hmap
    rw [length_expandCells, List.length_map] at hlen
    omega

/-- Witness for C1 at the spec's own example: source `[10, 20, 30]`,
runs `[(0, 2), (2, 1)]`, row count 3 — the output is `[10, 10, 30]`. -/
theorem take_primitive_types_refines_specExpand_witness :
    (sumCounts [(0, 2), (2, 1)] = 3 ∧
      (∀ r ∈ ([(0, 2), (2, 1)] : Runs), r.1 < List.length ([10, 20, 30] : List Int)) ∧
      (∀ r ∈ ([(0, 2), (2, 1)] : Runs), 0 < r.2 ∧ r.2 < 2 ^ 32)) ∧
    take_primitive_types ([10, 20, 30] : List Int) [(0, 2), (2, 1)] 3 =
      some ((specExpand ([10, 20, 30] : List Int) [(0, 2), (2, 1)]).map some) ∧
    specExpand ([10, 20, 30] : List Int) [(0, 2), (2, 1)] = [10, 10, 30] :=
  ⟨⟨by decide, by decide, by decide⟩,
    (take_primitive_types_refines_specExpand ([10, 20, 30] : List Int) [(0, 2), (2, 1)] 3
      (by decide) (by decide) (by decide)).1,
    by decide⟩

/-- Claim C2 — corrected.  The claim's stated preconditions (counts sum
to `row_num`, indices in bounds) admit a zero repeat count; there the
run loop does not complete safely: at `col = [10]`,
`runs = [(0, 1), (0, 0)]`, `row_num = 1` the second run underflows
`31 - cnt.leading_zeros()` (debug panic; in release the wrapped segment
length makes the subsequent copies overrun the allocation), so no final
state with a safe copy trace exists. -/
theorem take_primitive_copy_safety_cex :
    (sumCounts [(0, 1), (0, 0)] = 1 ∧
      ∀ r ∈ ([(0, 1), (0, 0)] : Runs), r.1 < List.length ([10] : List Int)) ∧
    ¬ ∃ st : FillSt Int, fillRuns ([10] : List Int) initSt [(0, 1), (0, 0)] = some st := by
  refine ⟨⟨by decide, by decide⟩, ?_⟩
  rintro ⟨st, h⟩
  rw [show fillRuns ([10] : List Int) initSt [(0, 1), (0, 0)] = none from rfl] at h
  exact Option.noConfusion h

/-- Claim C2 — amended: with every repeat count positive (and below
`2 ^ 32`), the run loop of `take_primitive_types` completes; every copy
it performs starts its destination exactly at the write frontier inside
the allocated output of length `row_num`, buffer-to-buffer copies read
only previously-written cells (hence regions disjoint from their
destination), the final write offset equals `row_num`, and every cell
below `row_num` has been written — so the final `set_len(row_num)` is
valid. -/
theorem take_primitive_copy_safety {α : Type} (col : List α) (runs : Runs) (row_num : Nat)
    (hsum : sumCounts runs = row_num)
    (hidx : ∀ r ∈ runs, r.1 < col.length)
    (hcnt : ∀ r ∈ runs, 0 < r.2 ∧ r.2 < 2 ^ 32) :
    ∃ st, fillRuns col initSt runs = some st ∧ st.offset = row_num ∧
      (∀ op ∈ st.ops, opSafe col.length row_num op) ∧
      ∀ j, j < row_num → st.buf j ≠ none := by
  obtain ⟨st, heq, hoff, hbuf, hops⟩ := fillRuns_spec col runs initSt
    (fun r hr => ⟨hidx r hr, (hcnt r hr).1, (hcnt r hr).2⟩)
  have hoff0 : st.offset = row_num := by
    rw [hoff]; dsimp only [initSt]; omega
  refine ⟨st, heq, hoff0, ?_, ?_⟩
  · intro op hop
    rcases hops op hop with hin | hP
    · dsimp only [initSt] at hin
      simp at hin
    · refine ⟨hP.1, ?_, ?_⟩
      · have := hP.2.2.1
        dsimp only [initSt] at this
        omega
      · exact hP.2.2.2
  · intro j hj
    rw [hbuf j]
    dsimp only [initSt]
    rw [if_pos ⟨Nat.zero_le j, by omega⟩]
    have hjlen : j - 0 < (expandCells col runs).length := by
      rw [length_expandCells]; omega
    rw [List.getElem?_eq_getElem hjlen]
    exact expandCells_ne_none col runs hidx _ (List.getElem_mem hjlen)

/-- Witness for C2 at source `[10, 20, 30]`, runs `[(0, 2), (2, 1)]`,
row count 3. -/
theorem take_primitive_copy_safety_witness :
    (sumCounts [(0, 2), (2, 1)] = 3 ∧
      (∀ r ∈ ([(0, 2), (2, 1)] : Runs), r.1 < List.length ([10, 20, 30] : List Int)) ∧
      (∀ r ∈ ([(0, 2), (2, 1)] : Runs), 0 < r.2 ∧ r.2 < 2 ^ 32)) ∧
    ∃ st, fillRuns ([10, 20, 30] : List Int) initSt [(0, 2), (2, 1)] = some st ∧
      st.offset = 3 ∧
      (∀ op ∈ st.ops, opSafe (List.length ([10, 20, 30] : List Int)) 3 op) ∧
      ∀ j, j < 3 → st.buf j ≠ none :=
  ⟨⟨by decide, by decide, by decide⟩,
    take_primitive_copy_safety ([10, 20, 30] : List Int) [(0, 2), (2, 1)] 3
      (by decide) (by decide) (by decide)⟩

/-- Claim C9 — corrected.  The claim says all four fill routines carry
the count-sum `debug_assert`; the variable-length routine
(`take_compact_arg_types`, used for String/Bitmap/Variant) does not: on a
run list whose counts sum to 2 with `row_num = 5` it simply performs its
pushes and returns, with no assertion to fire. -/
theorem take_compact_arg_types_no_assert_cex :
    sumCounts [(0, 2)] ≠ 5 ∧
    take_compact_arg_types ([[1]] : List (List Nat)) [(0, 2)] 5 = [some [1], some [1]] := by
  decide

/-- Claim C9 — amended: the primitive, boolean and scalar-item fill
routines each assert the count-sum precondition on every call (in the
model, the debug-build guard makes them fail before any element is
copied or pushed when the sum of the run counts differs from `row_num`);
the variable-length routine `take_compact_arg_types` performs no such
assertion. -/
theorem run_filler_debug_asserts :
    (∀ (col : List Int) (runs : Runs) (n : Nat), sumCounts runs ≠ n →
        take_primitive_types col runs n = none) ∧
    (∀ (col : List Bool) (runs : Runs) (n : Nat), sumCounts runs ≠ n →
        take_bool_types col runs n = none) ∧
    ∀ (values : Col) (offsets : List Nat) (runs : Runs) (n : Nat), sumCounts runs ≠ n →
        take_scalar_types_nested values offsets runs n = none := by
  refine ⟨?_, ?_, ?_⟩
  · intro col runs n h
    simp only [take_primitive_types, if_pos h]
  · intro col runs n h
    simp only [take_bool_types, if_pos h]
  · intro values offsets runs n h
    simp only [take_scalar_types_nested, if_pos h]

/-- Witness for C9: each asserting routine fails on `runs = [(0, 2)]`
with `row_num = 5`. -/
theorem run_filler_debug_asserts_witness :
    sumCounts [(0, 2)] ≠ 5 ∧
    take_primitive_types ([1] : List Int) [(0, 2)] 5 = none ∧
    take_bool_types [true] [(0, 2)] 5 = none ∧
    take_scalar_types_nested (.number .i32 [1]) [0, 1] [(0, 2)] 5 = none :=
  ⟨by decide,
    run_filler_debug_asserts.1 [1] [(0, 2)] 5 (by decide),
    run_filler_debug_asserts.2.1 [true] [(0, 2)] 5 (by decide),
    run_filler_debug_asserts.2.2 (.number .i32 [1]) [0, 1] [(0, 2)] 5 (by decide)⟩

/-- Claim C5 — confirmed: under the claim's preconditions (counts sum to
`R`, every index a valid bit position), `take_bool_types` returns exactly
`R` bits, each run `(index, cnt)` contributing `cnt` consecutive copies
of the single bit at `index`. -/
theorem take_bool_types_expansion (col : List Bool) (runs : Runs) (R : Nat)
    (hsum : sumCounts runs = R) (hidx : ∀ r ∈ runs, r.1 < col.length) :
    take_bool_types col runs R =
      some ((runs.flatMap fun r => List.replicate r.2 (col.getD r.1 false)).map some) ∧
    (runs.flatMap fun r => List.replicate r.2 (col.getD r.1 false)).length = R := by
  have hmap : expandCells col runs =
      (runs.flatMap fun r => List.replicate r.2 (col.getD r.1 false)).map some :=
    expandCells_eq_map_some col runs false hidx
  constructor
  · simp only [take_bool_types, if_neg (show ¬ sumCounts runs ≠ R by omega)]
    rw [pushRunCells_eq_expand, hmap]
  · have hlen := congrArg List.length hmap
    rw [length_expandCells, List.length_map] at hlen
    omega

/-- Witness for C5 at the spec's example: source bits
`[true, false, true]`, runs `[(1, 3)]`, row count 3 — output
`[false, false, false]`. -/
theorem take_bool_types_expansion_witness :
    (sumCounts [(1, 3)] = 3 ∧
      ∀ r ∈ ([(1, 3)] : Runs), r.1 < List.length [true, false, true]) ∧
    take_bool_types [true, false, true] [(1, 3)] 3 =
      some (([(1, 3)].flatMap fun r =>
        List.replicate r.2 ([true, false, true].getD r.1 false)).map some) ∧
    ([(1, 3)] : Runs).flatMap (fun r =>
        List.replicate r.2 ([true, false, true].getD r.1 false)) = [false, false, false] :=
  ⟨⟨by decide, by decide⟩,
    (take_bool_types_expansion [true, false, true] [(1, 3)] 3 (by decide) (by decide)).1,
    by decide⟩

theorem flatMap_singleton_map (l : List γ) (f : γ → β) :
    (l.flatMap fun x => [f x]) = l.map f := by
  induction l with
  | nil => rfl
  | cons x rest ih => simp only [List.flatMap_cons, ih, List.map_cons, List.singleton_append]

theorem sumCounts_eq_sum_map : ∀ runs : Runs, sumCounts runs = (runs.map Prod.snd).sum := by
  intro runs
  induction runs with
  | nil => rfl
  | cons r rest ih => rw [sumCounts_cons, List.map_cons, List.sum_cons, ih]

theorem length_idRuns (n : Nat) : (idRuns n).length = n := by
  simp [idRuns]

theorem sumCounts_idRuns (n : Nat) : sumCounts (idRuns n) = n := by
  rw [sumCounts_eq_sum_map, idRuns, List.map_map]
  have : (Prod.snd ∘ fun i : Nat => (i, 1)) = fun _ : Nat => (1 : Nat) := rfl
  rw [this, List.map_const', List.sum_replicate, List.length_range, smul_eq_mul, mul_one]

theorem mem_idRuns (n : Nat) : ∀ r ∈ idRuns n, r.1 < n ∧ r.2 = 1 := by
  intro r hr
  simp only [idRuns, List.mem_map, List.mem_range] at hr
  obtain ⟨i, hi, rfl⟩ := hr
  exact ⟨hi, rfl⟩

theorem expandCells_idRuns (col : List β) :
    expandCells col (idRuns col.length) = col.map some := by
  rw [expandCells, idRuns, List.flatMap_map]
  simp only [List.replicate_one]
  rw [flatMap_singleton_map]
  apply List.ext_getElem
  · simp
  · intro n h1 h2
    simp only [List.getElem_map, List.getElem_range]
    rw [List.getElem?_eq_getElem (by simpa using h2)]

theorem length_selRows : ∀ runs : Runs, (selRows runs).length = sumCounts runs := by
  intro runs
  induction runs with
  | nil => rfl
  | cons r rest ih =>
      simp only [selRows, List.flatMap_cons, List.length_append, List.length_replicate] at *
      rw [ih, sumCounts_cons]

theorem selRows_idRuns (n : Nat) : selRows (idRuns n) = List.range n := by
  rw [selRows, idRuns, List.flatMap_map]
  simp only [List.replicate_one]
  rw [flatMap_singleton_map, List.map_id']

theorem pairwiseLe_tail : ∀ (a : Nat) (l : List Nat),
    pairwiseLe (a :: l) = true → pairwiseLe l = true := by
  intro a l h
  cases l with
  | nil => rfl
  | cons b rest =>
      simp only [pairwiseLe, Bool.and_eq_true, decide_eq_true_eq] at h
      exact h.2

theorem pairwiseLe_adj : ∀ (l : List Nat), pairwiseLe l = true →
    ∀ t, t + 1 < l.length → l.getD t 0 ≤ l.getD (t + 1) 0 := by
  intro l
  induction l with
  | nil => intro _ t ht; simp at ht
  | cons a tail ih =>
      intro h t ht
      cases tail with
      | nil => simp at ht
      | cons b rest =>
          cases t with
          | zero =>
              simp only [pairwiseLe, Bool.and_eq_true, decide_eq_true_eq] at h
              simpa [List.getD_cons_zero, List.getD_cons_succ] using h.1
          | succ t =>
              rw [List.getD_cons_succ, List.getD_cons_succ]
              exact ih (pairwiseLe_tail a _ h) t (by simpa using ht)

theorem pairwiseLe_getD_mono (l : List Nat) (h : pairwiseLe l = true) :
    ∀ d s, s + d < l.length → l.getD s 0 ≤ l.getD (s + d) 0 := by
  intro d
  induction d with
  | zero => intro s _; exact Nat.le_refl _
  | succ d ih =>
      intro s hs
      calc l.getD s 0 ≤ l.getD (s + d) 0 := ih s (by omega)
        _ ≤ l.getD (s + d + 1) 0 := pairwiseLe_adj l h (s + d) (by omega)

theorem pairwiseLe_getD_le (l : List Nat) (h : pairwiseLe l = true)
    (i j : Nat) (hij : i ≤ j) (hj : j < l.length) : l.getD i 0 ≤ l.getD j 0 := by
  have := pairwiseLe_getD_mono l h (j - i) i (by omega)
  have heq : i + (j - i) = j := by omega
  rwa [heq] at this

theorem getLastD_take_succ (l : List Nat) (s : Nat) (hs : s < l.length) :
    (l.take (s + 1)).getLastD 0 = l.getD s 0 := by
  rw [List.take_succ, List.getElem?_eq_getElem hs]
  show (l.take s ++ [l[s]]).getLastD 0 = l.getD s 0
  rw [List.getLastD_concat, List.getD_eq_getElem?_getD, List.getElem?_eq_getElem hs]
  rfl

theorem getLastD_eq_getD_last (l : List Nat) (hne : l ≠ []) :
    l.getLastD 0 = l.getD (l.length - 1) 0 := by
  have hlen : 0 < l.length := List.length_pos.mpr hne
  rw [List.getLastD_eq_getLast?, List.getLast?_eq_getElem?,
    List.getD_eq_getElem?_getD]

theorem take_one_eq_zero_singleton (l : List Nat) (hne : l ≠ [])
    (h0 : l.getD 0 0 = 0) : l.take 1 = [0] := by
  cases l with
  | nil => exact absurd rfl hne
  | cons x rest =>
      rw [List.getD_cons_zero] at h0
      subst h0
      rfl

theorem rowCount_sliceRows_zero : ∀ c : Col, (c.sliceRows 0 0).rowCount = 0 := by
  intro c
  induction c using Col.rec
    (motive_2 := fun cs => Cols.firstRowCount (Cols.sliceRows cs 0 0) = 0) with
  | null len => simp [Col.sliceRows, Col.rowCount]
  | emptyArray len => simp [Col.sliceRows, Col.rowCount]
  | emptyMap len => simp [Col.sliceRows, Col.rowCount]
  | number k values => simp [Col.sliceRows, Col.rowCount]
  | decimal k sz values => simp [Col.sliceRows, Col.rowCount]
  | boolean bits => simp [Col.sliceRows, Col.rowCount]
  | string items => simp [Col.sliceRows, Col.rowCount]
  | timestamp values => simp [Col.sliceRows, Col.rowCount]
  | date values => simp [Col.sliceRows, Col.rowCount]
  | array v off ihv =>
      simp only [Col.sliceRows, Col.rowCount, List.length_map, List.length_take,
        List.drop_zero]
      omega
  | map v off ihv =>
      simp only [Col.sliceRows, Col.rowCount, List.length_map, List.length_take,
        List.drop_zero]
      omega
  | bitmap items => simp [Col.sliceRows, Col.rowCount]
  | nullable c validity ihc => simp [Col.sliceRows, Col.rowCount]
  | tuple fs ih => simpa [Col.sliceRows, Col.rowCount] using ih
  | variant items => simp [Col.sliceRows, Col.rowCount]
  | nil => simp [Cols.sliceRows, Cols.firstRowCount]
  | cons c cs ihc ihcs => simpa [Cols.sliceRows, Cols.firstRowCount] using ihc

theorem appendRows_cons (c : Col) (cs : Cols) (d : Col) (ds : Cols) :
    Cols.appendRows (Cols.cons c cs) (Cols.cons d ds) =
      Cols.cons (c.appendRows d) (Cols.appendRows cs ds) := rfl

theorem sliceRows_full : ∀ c : Col, c.wfb = true → c.sliceRows 0 c.rowCount = c := by
  intro c
  induction c using Col.rec
    (motive_2 := fun cs => ∀ n, Cols.wfbAll cs n = true → Cols.sliceRows cs 0 n = cs) with
  | null len => intro _; simp [Col.sliceRows, Col.rowCount]
  | emptyArray len => intro _; simp [Col.sliceRows, Col.rowCount]
  | emptyMap len => intro _; simp [Col.sliceRows, Col.rowCount]
  | number kd values => intro _; simp [Col.sliceRows, Col.rowCount]
  | decimal kd sz values => intro _; simp [Col.sliceRows, Col.rowCount]
  | boolean bits => intro _; simp [Col.sliceRows, Col.rowCount]
  | string items => intro _; simp [Col.sliceRows, Col.rowCount]
  | timestamp values => intro _; simp [Col.sliceRows, Col.rowCount]
  | date values => intro _; simp [Col.sliceRows, Col.rowCount]
  | array v off ihv =>
      intro h
      simp only [Col.wfb, Bool.and_eq_true, decide_eq_true_eq] at h
      obtain ⟨⟨⟨⟨hv, hne⟩, h0⟩, hmono⟩, hlast⟩ := h
      have hlen0 : 0 < off.length := List.length_pos.mpr hne
      simp only [Col.sliceRows, Col.rowCount, h0]
      simp only [Nat.sub_zero, Nat.zero_add, List.drop_zero, List.map_id']
      have hlen1 : off.length - 1 + 1 = off.length := by omega
      rw [hlen1, List.take_length]
      have hgd : off.getD (off.length - 1) 0 = v.rowCount := by
        rw [← getLastD_eq_getD_last off hne, hlast]
      rw [hgd, ihv hv]
  | map v off ihv =>
      intro h
      simp only [Col.wfb, Bool.and_eq_true, decide_eq_true_eq] at h
      obtain ⟨⟨⟨⟨hv, hne⟩, h0⟩, hmono⟩, hlast⟩ := h
      have hlen0 : 0 < off.length := List.length_pos.mpr hne
      simp only [Col.sliceRows, Col.rowCount, h0]
      simp only [Nat.sub_zero, Nat.zero_add, List.drop_zero, List.map_id']
      have hlen1 : off.length - 1 + 1 = off.length := by omega
      rw [hlen1, List.take_length]
      have hgd : off.getD (off.length - 1) 0 = v.rowCount := by
        rw [← getLastD_eq_getD_last off hne, hlast]
      rw [hgd, ihv hv]
  | bitmap items => intro _; simp [Col.sliceRows, Col.rowCount]
  | nullable c validity ihc =>
      intro h
      simp only [Col.wfb, Bool.and_eq_true, decide_eq_true_eq] at h
      obtain ⟨hv, hvl⟩ := h
      simp only [Col.sliceRows, Col.rowCount, List.drop_zero, List.take_length]
      rw [hvl, ihc hv]
  | tuple fs ihfs =>
      intro h
      simp only [Col.wfb] at h
      simp only [Col.sliceRows, Col.rowCount]
      rw [ihfs (Cols.firstRowCount fs) h]
  | variant items => intro _; simp [Col.sliceRows, Col.rowCount]
  | nil => rfl
  | cons c cs ihc ihcs =>
      rename_i n h
      simp only [Cols.wfbAll, Bool.and_eq_true, decide_eq_true_eq] at h
      obtain ⟨⟨hv, hcn⟩, hrest⟩ := h
      simp only [Cols.sliceRows]
      rw [ihcs n hrest, ← hcn, ihc hv]

theorem emptyLike_eq_sliceRows_zero : ∀ c : Col, c.wfb = true →
    c.emptyLike = c.sliceRows 0 0 := by
  intro c
  induction c using Col.rec
    (motive_2 := fun cs => ∀ n, Cols.wfbAll cs n = true →
      Cols.emptyLike cs = Cols.sliceRows cs 0 0) with
  | null len => intro _; simp [Col.emptyLike, Col.sliceRows]
  | emptyArray len => intro _; simp [Col.emptyLike, Col.sliceRows]
  | emptyMap len => intro _; simp [Col.emptyLike, Col.sliceRows]
  | number kd values => intro _; simp [Col.emptyLike, Col.sliceRows]
  | decimal kd sz values => intro _; simp [Col.emptyLike, Col.sliceRows]
  | boolean bits => intro _; simp [Col.emptyLike, Col.sliceRows]
  | string items => intro _; simp [Col.emptyLike, Col.sliceRows]
  | timestamp values => intro _; simp [Col.emptyLike, Col.sliceRows]
  | date values => intro _; simp [Col.emptyLike, Col.sliceRows]
  | array v off ihv =>
      intro h
      simp only [Col.wfb, Bool.and_eq_true, decide_eq_true_eq] at h
      obtain ⟨⟨⟨⟨hv, hne⟩, h0⟩, hmono⟩, hlast⟩ := h
      simp only [Col.emptyLike, Col.sliceRows, h0, Nat.zero_add, Nat.sub_zero,
        List.drop_zero]
      rw [take_one_eq_zero_singleton off hne h0]
      simp only [List.map_cons, List.map_nil, Nat.sub_zero]
      rw [ihv hv]
  | map v off ihv =>
      intro h
      simp only [Col.wfb, Bool.and_eq_true, decide_eq_true_eq] at h
      obtain ⟨⟨⟨⟨hv, hne⟩, h0⟩, hmono⟩, hlast⟩ := h
      simp only [Col.emptyLike, Col.sliceRows, h0, Nat.zero_add, Nat.sub_zero,
        List.drop_zero]
      rw [take_one_eq_zero_singleton off hne h0]
      simp only [List.map_cons, List.map_nil, Nat.sub_zero]
      rw [ihv hv]
  | bitmap items => intro _; simp [Col.emptyLike, Col.sliceRows]
  | nullable c validity ihc =>
      intro h
      simp only [Col.wfb, Bool.and_eq_true, decide_eq_true_eq] at h
      obtain ⟨hv, hvl⟩ := h
      simp only [Col.emptyLike, Col.sliceRows, List.drop_zero, List.take_zero]
      rw [ihc hv]
  | tuple fs ihfs =>
      intro h
      simp only [Col.wfb] at h
      simp only [Col.emptyLike, Col.sliceRows]
      rw [ihfs (Cols.firstRowCount fs) h]
  | variant items => intro _; simp [Col.emptyLike, Col.sliceRows]
  | nil => rfl
  | cons c cs ihc ihcs =>
      rename_i n h
      simp only [Cols.wfbAll, Bool.and_eq_true, decide_eq_true_eq] at h
      obtain ⟨⟨hv, _⟩, hrest⟩ := h
      simp only [Cols.emptyLike, Cols.sliceRows]
      rw [ihc hv, ihcs n hrest]

theorem sliceRows_append_sliceRows : ∀ c : Col, c.wfb = true →
    ∀ m k : Nat, m + k ≤ c.rowCount →
      (c.sliceRows 0 m).appendRows (c.sliceRows m k) = c.sliceRows 0 (m + k) := by
  intro c
  induction c using Col.rec
    (motive_2 := fun cs => ∀ n, Cols.wfbAll cs n = true → ∀ m k : Nat, m + k ≤ n →
      Cols.appendRows (Cols.sliceRows cs 0 m) (Cols.sliceRows cs m k) =
        Cols.sliceRows cs 0 (m + k)) with
  | null len =>
      intro _ m k hmk
      simp only [Col.rowCount] at hmk
      simp only [Col.sliceRows, Col.appendRows]
      congr 1
      omega
  | emptyArray len =>
      intro _ m k hmk
      simp only [Col.rowCount] at hmk
      simp only [Col.sliceRows, Col.appendRows]
      congr 1
      omega
  | emptyMap len =>
      intro _ m k hmk
      simp only [Col.rowCount] at hmk
      simp only [Col.sliceRows, Col.appendRows]
      congr 1
      omega
  | number kd values =>
      intro _ m k _
      simp only [Col.sliceRows, Col.appendRows, List.drop_zero]
      rw [← List.take_add]
  | decimal kd sz values =>
      intro _ m k _
      simp only [Col.sliceRows, Col.appendRows, List.drop_zero]
      rw [← List.take_add]
  | boolean bits =>
      intro _ m k _
      simp only [Col.sliceRows, Col.appendRows, List.drop_zero]
      rw [← List.take_add]
  | string items =>
      intro _ m k _
      simp only [Col.sliceRows, Col.appendRows, List.drop_zero]
      rw [← List.take_add]
  | timestamp values =>
      intro _ m k _
      simp only [Col.sliceRows, Col.appendRows, List.drop_zero]
      rw [← List.take_add]
  | date values =>
      intro _ m k _
      simp only [Col.sliceRows, Col.appendRows, List.drop_zero]
      rw [← List.take_add]
  | array v off ihv =>
      intro h m k hmk
      simp only [Col.wfb, Bool.and_eq_true, decide_eq_true_eq] at h
      obtain ⟨⟨⟨⟨hv, hne⟩, h0⟩, hmono⟩, hlast⟩ := h
      have hlen0 : 0 < off.length := List.length_pos.mpr hne
      simp only [Col.rowCount] at hmk
      have hm_lt : m < off.length := by omega
      have hmk_lt : m + k < off.length := by omega
      have hmono_mk : off.getD m 0 ≤ off.getD (m + k) 0 :=
        pairwiseLe_getD_le off hmono m (m + k) (by omega) hmk_lt
      have hbound : off.getD (m + k) 0 ≤ v.rowCount := by
        rw [← hlast, getLastD_eq_getD_last off hne]
        exact pairwiseLe_getD_le off hmono (m + k) (off.length - 1) (by omega) (by omega)
      simp only [Col.sliceRows, Col.appendRows, h0]
      simp only [Nat.sub_zero, Nat.zero_add, List.drop_zero, List.map_id']
      congr 1
      · have hv2 := ihv hv (off.getD m 0) (off.getD (m + k) 0 - off.getD m 0) (by omega)
        have hplus : off.getD m 0 + (off.getD (m + k) 0 - off.getD m 0) =
            off.getD (m + k) 0 := by omega
        rw [hplus] at hv2
        exact hv2
      · rw [getLastD_take_succ off m hm_lt, ← List.map_drop, List.drop_take,
          List.drop_drop, List.map_map]
        have hred : k + 1 - 1 = k := by omega
        rw [hred]
        have hcongr : List.map ((fun x => x + off.getD m 0) ∘ fun x => x - off.getD m 0)
            ((off.drop (m + 1)).take k) = (off.drop (m + 1)).take k := by
          have hmem : ∀ x ∈ (off.drop (m + 1)).take k,
              ((fun x => x + off.getD m 0) ∘ fun x => x - off.getD m 0) x = x := by
            intro x hx
            have hx2 := List.mem_of_mem_take hx
            obtain ⟨j, hj, rfl⟩ := List.mem_iff_getElem.mp hx2
            rw [List.getElem_drop]
            have hjlen : m + 1 + j < off.length := by
              rw [List.length_drop] at hj
              omega
            have hle : off.getD m 0 ≤ off.getD (m + 1 + j) 0 :=
              pairwiseLe_getD_le off hmono m (m + 1 + j) (by omega) hjlen
            have hgd : off.getD (m + 1 + j) 0 = off[m + 1 + j] := by
              rw [List.getD_eq_getElem?_getD, List.getElem?_eq_getElem hjlen]
              rfl
            simp only [Function.comp_apply]
            omega
          rw [List.map_congr_left hmem, List.map_id']
        rw [hcongr, ← List.take_add]
        have hfin : m + 1 + k = m + k + 1 := by omega
        rw [hfin]
  | map v off ihv =>
      intro h m k hmk
      simp only [Col.wfb, Bool.and_eq_true, decide_eq_true_eq] at h
      obtain ⟨⟨⟨⟨hv, hne⟩, h0⟩, hmono⟩, hlast⟩ := h
      have hlen0 : 0 < off.length := List.length_pos.mpr hne
      simp only [Col.rowCount] at hmk
      have hm_lt : m < off.length := by omega
      have hmk_lt : m + k < off.length := by omega
      have hmono_mk : off.getD m 0 ≤ off.getD (m + k) 0 :=
        pairwiseLe_getD_le off hmono m (m + k) (by omega) hmk_lt
      have hbound : off.getD (m + k) 0 ≤ v.rowCount := by
        rw [← hlast, getLastD_eq_getD_last off hne]
        exact pairwiseLe_getD_le off hmono (m + k) (off.length - 1) (by omega) (by omega)
      simp only [Col.sliceRows, Col.appendRows, h0]
      simp only [Nat.sub_zero, Nat.zero_add, List.drop_zero, List.map_id']
      congr 1
      · have hv2 := ihv hv (off.getD m 0) (off.getD (m + k) 0 - off.getD m 0) (by omega)
        have hplus : off.getD m 0 + (off.getD (m + k) 0 - off.getD m 0) =
            off.getD (m + k) 0 := by omega
        rw [hplus] at hv2
        exact hv2
      · rw [getLastD_take_succ off m hm_lt, ← List.map_drop, List.drop_take,
          List.drop_drop, List.map_map]
        have hred : k + 1 - 1 = k := by omega
        rw [hred]
        have hcongr : List.map ((fun x => x + off.getD m 0) ∘ fun x => x - off.getD m 0)
            ((off.drop (m + 1)).take k) = (off.drop (m + 1)).take k := by
          have hmem : ∀ x ∈ (off.drop (m + 1)).take k,
              ((fun x => x + off.getD m 0) ∘ fun x => x - off.getD m 0) x = x := by
            intro x hx
            have hx2 := List.mem_of_mem_take hx
            obtain ⟨j, hj, rfl⟩ := List.mem_iff_getElem.mp hx2
            rw [List.getElem_drop]
            have hjlen : m + 1 + j < off.length := by
              rw [List.length_drop] at hj
              omega
            have hle : off.getD m 0 ≤ off.getD (m + 1 + j) 0 :=
              pairwiseLe_getD_le off hmono m (m + 1 + j) (by omega) hjlen
            have hgd : off.getD (m + 1 + j) 0 = off[m + 1 + j] := by
              rw [List.getD_eq_getElem?_getD, List.getElem?_eq_getElem hjlen]
              rfl
            simp only [Function.comp_apply]
            omega
          rw [List.map_congr_left hmem, List.map_id']
        rw [hcongr, ← List.take_add]
        have hfin : m + 1 + k = m + k + 1 := by omega
        rw [hfin]
  | bitmap items =>
      intro _ m k _
      simp only [Col.sliceRows, Col.appendRows, List.drop_zero]
      rw [← List.take_add]
  | nullable c validity ihc =>
      intro h m k hmk
      simp only [Col.wfb, Bool.and_eq_true, decide_eq_true_eq] at h
      obtain ⟨hv, hvl⟩ := h
      simp only [Col.rowCount] at hmk
      simp only [Col.sliceRows, Col.appendRows, List.drop_zero]
      congr 1
      · exact ihc hv m k (by omega)
      · rw [← List.take_add]
  | tuple fs ihfs =>
      intro h m k hmk
      simp only [Col.wfb] at h
      simp only [Col.rowCount] at hmk
      simp only [Col.sliceRows, Col.appendRows]
      congr 1
      exact ihfs (Cols.firstRowCount fs) h m k hmk
  | variant items =>
      intro _ m k _
      simp only [Col.sliceRows, Col.appendRows, List.drop_zero]
      rw [← List.take_add]
  | nil => rfl
  | cons c cs ihc ihcs =>
      rename_i n h m k hmk
      simp only [Cols.wfbAll, Bool.and_eq_true, decide_eq_true_eq] at h
      obtain ⟨⟨hv, hcn⟩, hrest⟩ := h
      simp only [Cols.sliceRows, appendRows_cons]
      rw [ihc hv m k (by omega), ihcs n hrest m k hmk]

theorem take_primitive_types_idRuns (col : List γ) :
    take_primitive_types col (idRuns col.length) col.length = some (col.map some) := by
  have h := take_primitive_types_eq_expand col (idRuns col.length) col.length
    (sumCounts_idRuns _)
    (fun r hr => by
      have := mem_idRuns col.length r hr
      refine ⟨this.1, ?_, ?_⟩ <;> rw [this.2] <;> omega)
  rw [h, expandCells_idRuns]

theorem pushRunCells_idRuns (col : List γ) :
    pushRunCells col (idRuns col.length) = col.map some := by
  rw [pushRunCells_eq_expand, expandCells_idRuns]

theorem take_bool_types_idRuns (col : List Bool) :
    take_bool_types col (idRuns col.length) col.length = some (col.map some) := by
  rw [take_bool_types, if_neg (by rw [sumCounts_idRuns]; omega)]
  rw [pushRunCells_idRuns]

theorem take_compact_arg_types_idRuns (col : List γ) :
    take_compact_arg_types col (idRuns col.length) col.length = col.map some := by
  rw [take_compact_arg_types, pushRunCells_idRuns]

theorem pushNestedRepeat_eq_flat (src : Col) (off : List Nat) (i : Nat) :
    ∀ (c : Nat) (st : Col × List Nat),
      pushNestedRepeat src off i st c = pushNestedFlat src off st (List.replicate c i) := by
  intro c
  induction c with
  | zero => intro st; rfl
  | succ c ih =>
      intro st
      rw [List.replicate_succ]
      exact ih (pushNestedOne src off st i)

theorem pushNestedFlat_append (src : Col) (off : List Nat) :
    ∀ (l1 l2 : List Nat) (st : Col × List Nat),
      pushNestedFlat src off st (l1 ++ l2) =
        pushNestedFlat src off (pushNestedFlat src off st l1) l2 := by
  intro l1
  induction l1 with
  | nil => intro l2 st; rfl
  | cons i rest ih =>
      intro l2 st
      rw [List.cons_append]
      exact ih l2 (pushNestedOne src off st i)

theorem pushNestedRuns_eq_flat (src : Col) (off : List Nat) :
    ∀ (runs : Runs) (st : Col × List Nat),
      pushNestedRuns src off st runs = pushNestedFlat src off st (selRows runs) := by
  intro runs
  induction runs with
  | nil => intro st; rfl
  | cons r rest ih =>
      intro st
      obtain ⟨i, c⟩ := r
      show pushNestedRuns src off (pushNestedRepeat src off i st c) rest = _
      rw [ih, pushNestedRepeat_eq_flat]
      rw [show selRows ((i, c) :: rest) = List.replicate c i ++ selRows rest from rfl]
      rw [pushNestedFlat_append]

theorem pushNestedFlat_snd (src : Col) (off : List Nat) :
    ∀ (sel : List Nat) (st : Col × List Nat),
      (pushNestedFlat src off st sel).2 =
        st.2 ++ cumFrom off (st.2.getLastD 0) sel := by
  intro sel
  induction sel with
  | nil => intro st; simp [pushNestedFlat, cumFrom]
  | cons i rest ih =>
      intro st
      show (pushNestedFlat src off (pushNestedOne src off st i) rest).2 = _
      rw [ih]
      show (st.2 ++ [st.2.getLastD 0 + arrayRowLen off i]) ++
          cumFrom off ((st.2 ++ [st.2.getLastD 0 + arrayRowLen off i]).getLastD 0) rest = _
      rw [List.getLastD_concat, cumFrom, List.append_assoc, List.singleton_append]

theorem length_cumFrom (off : List Nat) : ∀ (sel : List Nat) (t : Nat),
    (cumFrom off t sel).length = sel.length := by
  intro sel
  induction sel with
  | nil => intro t; rfl
  | cons i rest ih => intro t; simp [cumFrom, ih]

theorem cumFrom_pairwise (off : List Nat) : ∀ (sel : List Nat) (t : Nat),
    pairwiseLe (t :: cumFrom off t sel) = true := by
  intro sel
  induction sel with
  | nil => intro t; rfl
  | cons i rest ih =>
      intro t
      rw [cumFrom]
      show (decide (t ≤ t + arrayRowLen off i) &&
        pairwiseLe ((t + arrayRowLen off i) :: cumFrom off (t + arrayRowLen off i) rest)) = true
      rw [ih (t + arrayRowLen off i)]
      simp

theorem cumFrom_getD_diff (off : List Nat) : ∀ (sel : List Nat) (t i : Nat),
    i < sel.length →
      (t :: cumFrom off t sel).getD (i + 1) 0 - (t :: cumFrom off t sel).getD i 0 =
        arrayRowLen off (sel.getD i 0) := by
  intro sel
  induction sel with
  | nil => intro t i hi; simp at hi
  | cons j rest ih =>
      intro t i hi
      cases i with
      | zero =>
          rw [cumFrom]
          simp only [List.getD_cons_succ, List.getD_cons_zero]
          omega
      | succ i =>
          rw [cumFrom]
          rw [List.getD_cons_succ, List.getD_cons_succ, List.getD_cons_succ]
          exact ih (t + arrayRowLen off j) i (by simpa using hi)

theorem pushNestedFlat_id_segment (v : Col) (off : List Nat) (hv : v.wfb = true)
    (hne : off ≠ []) (h0 : off.getD 0 0 = 0) (hmono : pairwiseLe off = true)
    (hlast : off.getLastD 0 = v.rowCount) :
    ∀ (k s : Nat), s + k ≤ off.length - 1 →
      pushNestedFlat v off (v.sliceRows 0 (off.getD s 0), off.take (s + 1))
          (List.range' s k) =
        (v.sliceRows 0 (off.getD (s + k) 0), off.take (s + k + 1)) := by
  have hlen0 : 0 < off.length := List.length_pos.mpr hne
  intro k
  induction k with
  | zero =>
      intro s _
      simp only [List.range', pushNestedFlat, Nat.add_zero]
  | succ k ih =>
      intro s hs
      rw [List.range'_succ]
      show pushNestedFlat v off
        (pushNestedOne v off (v.sliceRows 0 (off.getD s 0), off.take (s + 1)) s)
        (List.range' (s + 1) k) = _
      have hs_lt : s < off.length := by omega
      have hs1_lt : s + 1 < off.length := by omega
      have hmono_s : off.getD s 0 ≤ off.getD (s + 1) 0 :=
        pairwiseLe_getD_le off hmono s (s + 1) (by omega) hs1_lt
      have hbound : off.getD (s + 1) 0 ≤ v.rowCount := by
        rw [← hlast, getLastD_eq_getD_last off hne]
        exact pairwiseLe_getD_le off hmono (s + 1) (off.length - 1) (by omega) (by omega)
      have hone : pushNestedOne v off (v.sliceRows 0 (off.getD s 0), off.take (s + 1)) s =
          (v.sliceRows 0 (off.getD (s + 1) 0), off.take (s + 1 + 1)) := by
        rw [pushNestedOne]
        dsimp only
        congr 1
        · have happ := sliceRows_append_sliceRows v hv (off.getD s 0)
            (off.getD (s + 1) 0 - off.getD s 0) (by omega)
          rw [show arrayRowLen off s = off.getD (s + 1) 0 - off.getD s 0 from rfl]
          rw [happ]
          congr 1
          omega
        · rw [getLastD_take_succ off s hs_lt]
          rw [show off.getD s 0 + arrayRowLen off s = off.getD (s + 1) 0 by
            rw [arrayRowLen]; omega]
          conv_rhs => rw [List.take_succ]
          rw [List.getElem?_eq_getElem hs1_lt]
          rw [show off.getD (s + 1) 0 = off[s + 1] by
            rw [List.getD_eq_getElem?_getD, List.getElem?_eq_getElem hs1_lt]; rfl]
          rfl
      rw [hone, ih (s + 1) (by omega)]
      have hfin : s + 1 + k = s + (k + 1) := by omega
      rw [hfin]

theorem takeCompacted_id : ∀ c : Col, c.wfb = true →
    c.takeCompacted (idRuns c.rowCount) c.rowCount = some c := by
  intro c
  induction c using Col.rec
    (motive_2 := fun cs => ∀ n, Cols.wfbAll cs n = true →
      Cols.takeCompacted cs (idRuns n) n = some cs) with
  | null len =>
      intro _
      simp [Col.rowCount, Col.takeCompacted, Col.sliceRows, length_idRuns]
  | emptyArray len =>
      intro _
      simp [Col.rowCount, Col.takeCompacted, Col.sliceRows, length_idRuns]
  | emptyMap len =>
      intro _
      simp [Col.rowCount, Col.takeCompacted, Col.sliceRows, length_idRuns]
  | number kd values =>
      intro _
      simp only [Col.rowCount, Col.takeCompacted, take_primitive_types_idRuns,
        collectCells_map_some]
  | decimal kd sz values =>
      intro _
      simp only [Col.rowCount, Col.takeCompacted, take_primitive_types_idRuns,
        collectCells_map_some]
  | boolean bits =>
      intro _
      simp only [Col.rowCount, Col.takeCompacted, take_bool_types_idRuns,
        collectCells_map_some]
  | string items =>
      intro _
      simp only [Col.rowCount, Col.takeCompacted, take_compact_arg_types_idRuns,
        collectCells_map_some]
  | timestamp values =>
      intro _
      simp only [Col.rowCount, Col.takeCompacted, take_primitive_types_idRuns,
        collectCells_map_some]
  | date values =>
      intro _
      simp only [Col.rowCount, Col.takeCompacted, take_primitive_types_idRuns,
        collectCells_map_some]
  | array v off ihv =>
      intro h
      simp only [Col.wfb, Bool.and_eq_true, decide_eq_true_eq] at h
      obtain ⟨⟨⟨⟨hv, hne⟩, h0⟩, hmono⟩, hmlast⟩ := h
      have hlen0 : 0 < off.length := List.length_pos.mpr hne
      have hpush : pushNestedRuns v off (v.emptyLike, [0]) (idRuns (off.length - 1)) =
          (v, off) := by
        rw [pushNestedRuns_eq_flat, selRows_idRuns, List.range_eq_range']
        have hstart : ((v.emptyLike, ([0] : List Nat)) : Col × List Nat) =
            (v.sliceRows 0 (off.getD 0 0), off.take (0 + 1)) := by
          rw [h0, emptyLike_eq_sliceRows_zero v hv, take_one_eq_zero_singleton off hne h0]
        rw [hstart, pushNestedFlat_id_segment v off hv hne h0 hmono hmlast
          (off.length - 1) 0 (by omega)]
        rw [show 0 + (off.length - 1) = off.length - 1 by omega]
        rw [show off.length - 1 + 1 = off.length by omega, List.take_length]
        rw [show off.getD (off.length - 1) 0 = v.rowCount by
          rw [← getLastD_eq_getD_last off hne, hmlast]]
        rw [sliceRows_full v hv]
      simp only [Col.rowCount, Col.takeCompacted, take_scalar_types_nested,
        sumCounts_idRuns, ne_eq, not_true_eq_false, if_false, hpush]
  | map v off ihv =>
      intro h
      simp only [Col.wfb, Bool.and_eq_true, decide_eq_true_eq] at h
      obtain ⟨⟨⟨⟨hv, hne⟩, h0⟩, hmono⟩, hmlast⟩ := h
      have hlen0 : 0 < off.length := List.length_pos.mpr hne
      have hpush : pushNestedRuns v off (v.emptyLike, [0]) (idRuns (off.length - 1)) =
          (v, off) := by
        rw [pushNestedRuns_eq_flat, selRows_idRuns, List.range_eq_range']
        have hstart : ((v.emptyLike, ([0] : List Nat)) : Col × List Nat) =
            (v.sliceRows 0 (off.getD 0 0), off.take (0 + 1)) := by
          rw [h0, emptyLike_eq_sliceRows_zero v hv, take_one_eq_zero_singleton off hne h0]
        rw [hstart, pushNestedFlat_id_segment v off hv hne h0 hmono hmlast
          (off.length - 1) 0 (by omega)]
        rw [show 0 + (off.length - 1) = off.length - 1 by omega]
        rw [show off.length - 1 + 1 = off.length by omega, List.take_length]
        rw [show off.getD (off.length - 1) 0 = v.rowCount by
          rw [← getLastD_eq_getD_last off hne, hmlast]]
        rw [sliceRows_full v hv]
      simp only [Col.rowCount, Col.takeCompacted, take_scalar_types_nested,
        sumCounts_idRuns, ne_eq, not_true_eq_false, if_false, hpush]
  | bitmap items =>
      intro _
      simp only [Col.rowCount, Col.takeCompacted, take_compact_arg_types_idRuns,
        collectCells_map_some]
  | nullable c validity ihc =>
      intro h
      simp only [Col.wfb, Bool.and_eq_true, decide_eq_true_eq] at h
      obtain ⟨hv, hvl⟩ := h
      have hinner : c.takeCompacted (idRuns validity.length) validity.length = some c := by
        rw [hvl]
        exact ihc hv
      simp only [Col.rowCount, Col.takeCompacted, hinner, take_bool_types_idRuns,
        collectCells_map_some]
  | tuple fs ihfs =>
      intro h
      simp only [Col.wfb] at h
      simp only [Col.rowCount, Col.takeCompacted, ihfs (Cols.firstRowCount fs) h]
  | variant items =>
      intro _
      simp only [Col.rowCount, Col.takeCompacted, take_compact_arg_types_idRuns,
        collectCells_map_some]
  | nil => rfl
  | cons c cs ihc ihcs =>
      rename_i n h
      simp only [Cols.wfbAll, Bool.and_eq_true, decide_eq_true_eq] at h
      obtain ⟨⟨hv, hcn⟩, hrest⟩ := h
      have hc : c.takeCompacted (idRuns n) n = some c := by
        rw [← hcn]
        exact ihc hv
      simp only [Cols.takeCompacted, hc, ihcs n hrest]

/-- Claim C3 — code bug.  The spec says a placeholder column compacts to
"R placeholders", but the source slices `self` to `0..indices.len()` —
the number of runs, not the target row count.  On a `Null` column of
length 3 with the single run `(0, 2)` and `row_num = 2` (counts sum to 2,
index in bounds) the kernel returns a 1-row placeholder instead of a
2-row one, contradicting both the row-count law and the equal-row-count
invariant `DataBlock::new` expects of a batch. -/
theorem takeCompacted_null_placeholder_bug :
    Col.takeCompacted (.null 3) [(0, 2)] 2 = some (.null 1) ∧
    Col.rowCount (.null 1) = 1 := ⟨rfl, rfl⟩

/-- Claim C4 — code bug (same defect as C3): the row-count law fails on
placeholder columns, the only branch of `Column::take_compacted_indices`
that uses `indices.len()` instead of `row_num`.  On an `EmptyArray`
column of length 4 with runs `[(0, 1), (1, 2)]` (counts sum to 3, indices
in bounds) the result has 2 rows, not 3. -/
theorem takeCompacted_row_count_bug :
    Col.takeCompacted (.emptyArray 4) [(0, 1), (1, 2)] 3 = some (.emptyArray 2) ∧
    Col.rowCount (.emptyArray 2) = 2 := ⟨rfl, rfl⟩

/-- Claim C6 — confirmed: for every well-formed column `C` of length `n`
(well-formed per the spec's data-model invariants, §3), taking `C` with
the identity run list `[(0,1), …, (n-1,1)]` and target row count `n`
returns a column structurally equal to `C`.  (The placeholder branch is
unaffected by the C3/C4 bug here because the identity run list has
exactly `n` runs.) -/
theorem takeCompacted_identity (c : Col) (h : c.wfb = true) :
    c.takeCompacted (idRuns c.rowCount) c.rowCount = some c :=
  takeCompacted_id c h

/-- Witness for C6 on a nested array-of-numbers column. -/
theorem takeCompacted_identity_witness :
    Col.wfb (.array (.number .i32 [1, 2, 3]) [0, 1, 1, 3]) = true ∧
    Col.takeCompacted (.array (.number .i32 [1, 2, 3]) [0, 1, 1, 3])
      (idRuns (Col.rowCount (.array (.number .i32 [1, 2, 3]) [0, 1, 1, 3])))
      (Col.rowCount (.array (.number .i32 [1, 2, 3]) [0, 1, 1, 3])) =
      some (.array (.number .i32 [1, 2, 3]) [0, 1, 1, 3]) :=
  ⟨by decide, takeCompacted_identity _ (by decide)⟩

/-- Claim C7 — confirmed: for a well-formed source array column and a
well-formed run list with counts summing to `row_count`, the compacted
array column's offsets have length `row_count + 1`, start at 0, are
non-decreasing, and each difference `offsets[i+1] - offsets[i]` is the
length of the inner sub-sequence of the source row selected for output
position `i`. -/
theorem takeCompacted_array_offsets_invariant (values : Col) (offsets : List Nat)
    (runs : Runs) (R : Nat)
    (hwf : Col.wfb (.array values offsets) = true)
    (hsum : sumCounts runs = R)
    (hidx : ∀ r ∈ runs, r.1 < Col.rowCount (.array values offsets)) :
    ∃ v2 o2, Col.takeCompacted (.array values offsets) runs R = some (.array v2 o2) ∧
      o2.length = R + 1 ∧ o2.getD 0 0 = 0 ∧ pairwiseLe o2 = true ∧
      ∀ i, i < R → o2.getD (i + 1) 0 - o2.getD i 0 =
        arrayRowLen offsets ((selRows runs).getD i 0) := by
  have hflat := pushNestedRuns_eq_flat values offsets runs (values.emptyLike, [0])
  have hsnd := pushNestedFlat_snd values offsets (selRows runs) (values.emptyLike, [0])
  have ho2 : (pushNestedRuns values offsets (values.emptyLike, [0]) runs).2 =
      0 :: cumFrom offsets 0 (selRows runs) := by
    rw [hflat, hsnd]
    rfl
  refine ⟨(pushNestedRuns values offsets (values.emptyLike, [0]) runs).1,
    (pushNestedRuns values offsets (values.emptyLike, [0]) runs).2, ?_, ?_, ?_, ?_, ?_⟩
  · simp only [Col.takeCompacted, take_scalar_types_nested]
    rw [if_neg (show ¬ sumCounts runs ≠ R by omega)]
  · rw [ho2]
    simp only [List.length_cons, length_cumFrom, length_selRows, hsum]
  · rw [ho2]
    rfl
  · rw [ho2]
    exact cumFrom_pairwise offsets (selRows runs) 0
  · intro i hi
    rw [ho2]
    exact cumFrom_getD_diff offsets (selRows runs) 0 i
      (by rw [length_selRows, hsum]; exact hi)

/-- Witness for C7: array column with offsets `[0, 1, 1, 3]`, runs
`[(0, 2), (2, 1)]`, row count 3. -/
theorem takeCompacted_array_offsets_invariant_witness :
    (Col.wfb (.array (.number .i32 [1, 2, 3]) [0, 1, 1, 3]) = true ∧
      sumCounts [(0, 2), (2, 1)] = 3 ∧
      ∀ r ∈ ([(0, 2), (2, 1)] : Runs),
        r.1 < Col.rowCount (.array (.number .i32 [1, 2, 3]) [0, 1, 1, 3])) ∧
    ∃ v2 o2, Col.takeCompacted (.array (.number .i32 [1, 2, 3]) [0, 1, 1, 3])
        [(0, 2), (2, 1)] 3 = some (.array v2 o2) ∧
      o2.length = 3 + 1 ∧ o2.getD 0 0 = 0 ∧ pairwiseLe o2 = true ∧
      ∀ i, i < 3 → o2.getD (i + 1) 0 - o2.getD i 0 =
        arrayRowLen [0, 1, 1, 3] ((selRows [(0, 2), (2, 1)]).getD i 0) :=
  ⟨⟨by decide, by decide, by decide⟩,
    takeCompacted_array_offsets_invariant (.number .i32 [1, 2, 3]) [0, 1, 1, 3]
      [(0, 2), (2, 1)] 3 (by decide) (by decide) (by decide)⟩

/-- Claim C8 — confirmed: with an empty run list and row count 0,
`DataBlock::take_compacted_indices` returns `Ok` of the zero-row slice of
the batch: the row count is 0, every entry keeps its data type (scalars
stay scalars), and every column entry has 0 rows. -/
theorem datablock_take_empty_runs_zero_slice (b : DataBlock σ τ) :
    b.take_compacted_indices [] 0 = some b.sliceZero ∧
    b.sliceZero.rowNum = 0 ∧
    b.sliceZero.entries.map BlockEntry.ty = b.entries.map BlockEntry.ty ∧
    ∀ e ∈ b.sliceZero.entries, ∀ c : Col, e.val = .column c → c.rowCount = 0 := by
  refine ⟨rfl, rfl, ?_, ?_⟩
  · show (b.entries.map BlockEntry.slice0).map BlockEntry.ty = _
    rw [List.map_map]
    apply List.map_congr_left
    intro e _
    rfl
  · intro e he c hc
    simp only [DataBlock.sliceZero, List.mem_map] at he
    obtain ⟨e0, _, rfl⟩ := he
    cases hval : e0.val with
    | scalar s =>
        simp only [BlockEntry.slice0, hval] at hc
        exact EntryVal.noConfusion hc
    | column c0 =>
        simp only [BlockEntry.slice0, hval, EntryVal.column.injEq] at hc
        rw [← hc]
        exact rowCount_sliceRows_zero c0

/-- Claim C10 — confirmed: with an empty run list,
`DataBlock::take_compacted_indices` ignores the `row_num` argument
entirely — for every `n` it returns `Ok` of the zero-row slice, whose row
count is 0, never `n`. -/
theorem datablock_take_empty_runs_ignores_row_num (b : DataBlock σ τ) (n : Nat) :
    b.take_compacted_indices [] n = some b.sliceZero ∧ b.sliceZero.rowNum = 0 :=
  ⟨rfl, rfl⟩

end TakeCompact
